import Mathlib

/-!
Verification of the random character generator (dfrandom.py) against its
natural-language specification.

The Python source is shallowly embedded in Lean:

* a trait tuple (name, cost, trait_type) becomes the type Trait below;
  Python integers are modelled as Int;
* the global random source (random.choice) is modelled by an injected
  stream of naturals (a List Nat); each call to random.choice consumes
  the head h of the stream and picks index h modulo the list length,
  so every possible sequence of draws is realised by some stream;
* the unbounded retry recursion of pick_from_list is modelled with an
  explicit fuel parameter counting passes; a run that does not finish
  within the fuel returns none;
* in-place mutation of the caller's list argument is made observable by
  returning, next to the result, the final value of the caller's list
  (the list as left behind by the first pass; retries operate on the
  private deepcopy only, which is invisible to the caller);
* Python exceptions (KeyError, ValueError, UnboundLocalError, failed
  assert) are modelled with Except.
-/

set_option maxHeartbeats 1000000

/-- Trait categories, mirroring the TraitType enum of the source. -/
inductive TraitType where
  | PA | SA | AD | DI | FE | SK | SP
deriving DecidableEq

/-- One selectable trait: (name, cost, trait_type), as in the source tuples. -/
abbrev Trait := String × Int × TraitType

/-- Cost component of a trait tuple. -/
def traitCost (t : Trait) : Int := t.2.1

/-- Name component of a trait tuple. -/
def traitName (t : Trait) : String := t.1

/-- Total summed cost of a list of traits. -/
def sumCost (ts : List Trait) : Int := (ts.map traitCost).sum

/-- Helper: erasing a member picked by index strictly shrinks a list. -/
theorem erase_get_length_lt {α : Type} [BEq α] [LawfulBEq α] (l : List α) (i : Fin l.length) :
    (l.erase (l.get i)).length < l.length := by
  rw [List.length_erase_of_mem (List.get_mem l i.1 i.2)]
  have hpos : 0 < l.length := Nat.lt_of_le_of_lt (Nat.zero_le _) i.2
  omega

/-- Inner loop of pick_from_list: while lst2 is nonempty, draw a random
element; if the acceptance test passes, return it (the group is then
abandoned); otherwise remove the element from the group and keep scanning.
Models lines 85-93 / 113-122 of dfrandom.py, with the acceptance test
passed in as a parameter.  The third component is the final content of the
group object, which Python mutates in place: the rejected alternatives
have been removed; on acceptance the loop breaks, keeping the accepted
alternative and everything not yet scanned; when no alternative is
accepted the group has been emptied. -/
def scanGroup (accept : Trait → Bool) (r : List Nat) (g : List Trait) :
    Option Trait × List Nat × List Trait :=
  if hg : g = [] then (none, r, [])
  else
    let tup := g.get ⟨r.headD 0 % g.length, Nat.mod_lt _ (List.length_pos.mpr hg)⟩
    if accept tup then (some tup, r.tail, g)
    else scanGroup accept r.tail (g.erase tup)
termination_by g.length
decreasing_by
  exact erase_get_length_lt g _

/-- One full pass of the outer while loop of pick_from_list (lines 82-93):
while the pool is nonempty and points_left is nonzero, draw a random group
lst2 = lst[i], then run lst.remove(lst2) - which deletes the FIRST element
equal to lst2, not necessarily the chosen object - and scan the chosen
object, mutating it in place.  When an equal group precedes the chosen one
(it then sits at position i-1 after the removal), the chosen object stays
in the caller's list and its slot receives the scanned group's final
content.  The acceptance test may depend on points_left and on the traits
accepted so far in this call (as the prerequisite-enforcing variant
requires).  Returns the accepted traits, the final points_left, the
remaining random stream, and the final value of the (mutated) pool list. -/
def pickPassAux (accept : Int → List Trait → Trait → Bool) (r : List Nat)
    (lst : List (List Trait)) (pl : Int) (traits : List Trait) :
    List Trait × Int × List Nat × List (List Trait) :=
  if hstop : lst = [] ∨ pl = 0 then (traits, pl, r, lst)
  else
    have hne : lst ≠ [] := fun hh => hstop (Or.inl hh)
    let i := r.headD 0 % lst.length
    let g := lst.get ⟨i, Nat.mod_lt _ (List.length_pos.mpr hne)⟩
    match scanGroup (accept pl traits) r.tail g with
    | (some tup, r2, gFin) =>
        pickPassAux accept r2
          (if g ∈ lst.take i then (lst.erase g).set (i - 1) gFin else lst.erase g)
          (pl - traitCost tup) (traits ++ [tup])
    | (none, r2, gFin) =>
        pickPassAux accept r2
          (if g ∈ lst.take i then (lst.erase g).set (i - 1) gFin else lst.erase g)
          pl traits
termination_by lst.length
decreasing_by
  all_goals
    split
    all_goals first
      | (rw [List.length_set]; exact erase_get_length_lt lst _)
      | exact erase_get_length_lt lst _

/-- Python str.title(), restricted to ASCII as used by the catalogs: an
alphabetic character is uppercased when the previous character is not
alphabetic and lowercased otherwise. -/
def pyTitleAux : Bool → List Char → List Char
  | _, [] => []
  | prev, c :: rest =>
      (if c.isAlpha then (if prev then c.toLower else c.toUpper) else c) ::
        pyTitleAux c.isAlpha rest

/-- Python str.title() on strings. -/
def pyTitle (s : String) : String := String.mk (pyTitleAux false s.data)

/-- Python str.upper() (ASCII). -/
def pyUpper (s : String) : String := String.mk (s.data.map Char.toUpper)

/-- Substring test on character lists (Python "needle in hay"). -/
def listIsInfix (needle hay : List Char) : Bool :=
  if needle.isPrefixOf hay then true
  else
    match hay with
    | [] => false
    | _ :: t => listIsInfix needle t

/-- Python "needle in hay" on strings. -/
def strContains (hay needle : String) : Bool := listIsInfix needle.data hay.data

/-- Python hay.startswith(pre). -/
def strStarts (hay pre : String) : Bool := pre.data.isPrefixOf hay.data

/-- Numeric value of a list of decimal digit characters. -/
def digitsToNat (ds : List Char) : Nat :=
  ds.foldl (fun a c => 10 * a + (c.toNat - '0'.toNat)) 0

/-- Model of re.search("(\\d+).*$", s).group(1): the first maximal run of
decimal digits in s, if any. -/
def firstDigitRun : List Char → Option Nat
  | [] => none
  | c :: rest =>
      if c.isDigit then some (digitsToNat (List.takeWhile Char.isDigit (c :: rest)))
      else firstDigitRun rest

/-- Value of a nonempty all-digit character list, otherwise none. -/
def digitsVal (ds : List Char) : Option Int :=
  if ds ≠ [] ∧ ∀ c ∈ ds, c.isDigit then some ((digitsToNat ds : Nat) : Int) else none

/-- Strip leading and trailing blanks from a character list. -/
def stripSpaces (cs : List Char) : List Char :=
  ((cs.dropWhile (fun c => c == ' ')).reverse.dropWhile (fun c => c == ' ')).reverse

/-- Python int(s) on the decimal literals appearing in the catalogs:
optional surrounding blanks, optional sign, decimal digits. -/
def pyInt (s : String) : Option Int :=
  match stripSpaces s.data with
  | '-' :: ds => (digitsVal ds).map (fun n => -n)
  | '+' :: ds => digitsVal ds
  | ds => digitsVal ds

/-- Python exceptions relevant to the embedded functions. -/
inductive PyErr where
  | unboundLocal
  | keyError
  | valueError
deriving DecidableEq

/-- Compiled prerequisite predicates.  The Python compiler emits source text
for each recognized leaf shape and composes leaves with generated and_/or_
calls; the emitted program for each shape is represented here by one AST
constructor whose evaluator (evalPred) performs exactly the computation of
the emitted code.  Numeric thresholds that the emitted code parses with
int(...) are parsed once at compilation in this model. -/
inductive PrereqPred where
  | nameIs (s : String)
  | nameContains (s : String)
  | nameStarts (s : String)
  | collegeCountAtLeast (n : Int)
  | collegeContains (s : String)
  | collegeIs (s : String)
  | collegeQtyAtLeast (s : String) (n : Int)
  | spellsStartingAtLeast (s : String) (n : Int)
  | spellsContainingAtLeast (s : String) (n : Int)
  | nameIsCountAtLeast (s : String) (n : Int)
  | spellCountAtLeast (n : Int)
  | advNotStarts (s : String)
  | advNotIs (s : String)
  | advNotContains (s : String)
  | advLevelAtLeast (pre : String) (lvl : Int)
  | advLevelNotesContains (pre : String) (notes : String) (lvl : Int)
  | advLevelNotesAbsent (pre : String) (notes : String) (lvl : Int)
  | advContainsLevelAtLeast (pre : String) (lvl : Int)
  | advNameIs (s : String)
  | advStartsNotesContains (pre : String) (notes : String)
  | advContains (s : String)
  | attrAtLeast (pre : String) (lvl : Int)
  | skillLevelAtLeast (pre : String) (lvl : Int)
  | skillIs (s : String)
  | andP (ps : List PrereqPred)
  | orP (ps : List PrereqPred)
  | trueP

/-- The global spell_to_colleges mapping, passed explicitly. -/
structure SpellEnv where
  colleges : List (String × List String)

/-- First-occurrence deduplication (used to model Python set construction;
the iteration order of a Python set is unspecified, first-occurrence order
is the order fixed by this model). -/
def dedupFirstAux (seen : List String) : List String → List String
  | [] => []
  | n :: rest =>
      if seen.contains n then dedupFirstAux seen rest
      else n :: dedupFirstAux (n :: seen) rest

/-- Model of set(trait[0] for trait in traits). -/
def traitNamesOf (traits : List Trait) : List String :=
  dedupFirstAux [] (traits.map traitName)

/-- count_spell_colleges: size of the union of the colleges of all selected
spells (dfrandom.py lines 2872-2878). -/
def count_spell_colleges (env : SpellEnv) (traits : List Trait) : Nat :=
  (dedupFirstAux [] ((traits.filterMap (fun t => List.lookup t.1 env.colleges)).flatten)).length

/-- Increment the count of key k in an insertion-ordered counter. -/
def bumpKey (k : String) : List (String × Nat) → List (String × Nat)
  | [] => [(k, 1)]
  | (k', v) :: rest => if k' == k then (k', v + 1) :: rest else (k', v) :: bumpKey k rest

/-- count_spells_from_each_college: Counter of colleges over the selected
spells (lines 2881-2887). -/
def count_spells_from_each_college (env : SpellEnv) (traits : List Trait) :
    List (String × Nat) :=
  traits.foldl
    (fun acc t => ((List.lookup t.1 env.colleges).getD []).foldl (fun a c => bumpKey c a) acc)
    []

/-- count_spells_starting_with (lines 2890-2896). -/
def count_spells_starting_with (env : SpellEnv) (traits : List Trait) (st : String) : Nat :=
  (traits.filter (fun t =>
    strStarts (pyTitle t.1) (pyTitle st) && (List.lookup (pyTitle t.1) env.colleges).isSome)).length

/-- count_spells_containing (lines 2899-2905). -/
def count_spells_containing (env : SpellEnv) (traits : List Trait) (st : String) : Nat :=
  (traits.filter (fun t =>
    strContains (pyTitle t.1) (pyTitle st) && (List.lookup (pyTitle t.1) env.colleges).isSome)).length

/-- count_spells (lines 2908-2914). -/
def count_spells (env : SpellEnv) (traits : List Trait) : Nat :=
  (traits.filter (fun t => (List.lookup (pyTitle t.1) env.colleges).isSome)).length

/-- Shared shape of the generated level-comparison loops: walk the trait
names; on the first name passing cond that contains a digit run, return
whether that first run is at least lvl; names passing cond without digits
are skipped; exhaustion gives False. -/
def levelScan (cond : String → Bool) (lvl : Int) : List String → Bool
  | [] => false
  | n :: rest =>
      if cond n then
        match firstDigitRun n.data with
        | some k => decide (lvl ≤ (k : Int))
        | none => levelScan cond lvl rest
      else levelScan cond lvl rest

/-- Evaluator for compiled predicates: the computation performed by the
Python source text that _parse_*_prereq emits for each shape, evaluated
against the selected traits and their name set. -/
def evalPred (env : SpellEnv) (traits : List Trait) (names : List String) : PrereqPred → Bool
  | .nameIs s => names.contains s
  | .nameContains s => names.any (fun n => strContains (pyTitle n) (pyTitle s))
  | .nameStarts s => names.any (fun n => strStarts (pyTitle n) s)
  | .collegeCountAtLeast n => decide (n ≤ (count_spell_colleges env traits : Int))
  | .collegeContains s =>
      (count_spells_from_each_college env traits).any
        (fun p => strContains (pyTitle p.1) s && decide (1 ≤ p.2))
  | .collegeIs s =>
      decide (1 ≤ (List.lookup s (count_spells_from_each_college env traits)).getD 0)
  | .collegeQtyAtLeast s n =>
      decide (n ≤ ((List.lookup s (count_spells_from_each_college env traits)).getD 0 : Int))
  | .spellsStartingAtLeast s n => decide (n ≤ (count_spells_starting_with env traits s : Int))
  | .spellsContainingAtLeast s n => decide (n ≤ (count_spells_containing env traits s : Int))
  | .nameIsCountAtLeast s n => decide (n ≤ ((names.filter (fun t => t == s)).length : Int))
  | .spellCountAtLeast n => decide (n ≤ (count_spells env traits : Int))
  | .advNotStarts s => !(names.any (fun n => strStarts (pyTitle n) (pyTitle s)))
  | .advNotIs s => !(names.any (fun n => pyTitle n == pyTitle s))
  | .advNotContains s => !(names.any (fun n => strContains (pyTitle n) (pyTitle s)))
  | .advLevelAtLeast pre lvl => levelScan (fun n => strStarts n pre) lvl names
  | .advLevelNotesContains pre notes lvl =>
      levelScan (fun n => strStarts n pre && strContains n notes) lvl names
  | .advLevelNotesAbsent pre notes lvl =>
      levelScan (fun n => strStarts n pre && !(strContains n notes)) lvl names
  | .advContainsLevelAtLeast s lvl => levelScan (fun n => strContains n s) lvl names
  | .advNameIs s => names.contains s
  | .advStartsNotesContains pre notes =>
      names.any (fun n => strStarts (pyTitle n) (pyTitle pre) && strContains (pyTitle n) notes)
  | .advContains s => names.any (fun n => strContains (pyTitle n) (pyTitle s))
  | .attrAtLeast pre lvl => levelScan (fun n => strStarts n pre) lvl names
  | .skillLevelAtLeast pre lvl => levelScan (fun n => strStarts n pre) lvl names
  | .skillIs s => names.contains s
  | .andP ps => ps.attach.all (fun q => evalPred env traits names q.1)
  | .orP ps => ps.attach.any (fun q => evalPred env traits names q.1)
  | .trueP => true
termination_by p => sizeOf p
decreasing_by
  all_goals
    have hq := List.sizeOf_lt_of_mem q.2
    simp
    omega

/-- prereq_satisfied (lines 3406-3418): True when the spell has no compiled
prerequisite, otherwise the compiled predicate evaluated on the traits and
their name set. -/
def prereq_satisfied (env : SpellEnv) (table : List (String × PrereqPred)) (spell : String)
    (traits : List Trait) : Bool :=
  match List.lookup spell table with
  | none => true
  | some p => evalPred env traits (traitNamesOf traits) p

/-- Acceptance test of pick_from_list (line 88): abs(cost) <= abs(points_left). -/
def acceptPlain (pl : Int) (_acc : List Trait) (t : Trait) : Bool :=
  decide ((traitCost t).natAbs ≤ pl.natAbs)

/-- Acceptance test of pick_from_list_enforcing_prereqs (lines 116-117). -/
def acceptPrereq (env : SpellEnv) (table : List (String × PrereqPred)) (original : List Trait)
    (pl : Int) (acc : List Trait) (t : Trait) : Bool :=
  acceptPlain pl acc t && prereq_satisfied env table t.1 (original ++ acc)

/-- Retry chain: run whole passes on (a fresh copy of) the original list
until one of them ends with points_left == 0; fuel bounds the number of
passes (the Python recursion is unbounded). -/
def pickRetry (accept : Int → List Trait → Trait → Bool) (fuel : Nat) (r : List Nat)
    (lst : List (List Trait)) (points : Int) : Option (List Trait) × List Nat :=
  match fuel with
  | 0 => (none, r)
  | fuel' + 1 =>
      match pickPassAux accept r lst points [] with
      | (ts, pl, r', _) => if pl = 0 then (some ts, r') else pickRetry accept fuel' r' lst points

/-- pick_from_list (lines 72-97).  First component: the returned traits
(none when the retry fuel runs out).  Second component: the final value of
the caller's list argument, which the Python code mutates in place during
the first pass (retries mutate only the private deepcopy). -/
def pick_from_list (fuel : Nat) (r : List Nat) (lst : List (List Trait)) (points : Int) :
    Option (List Trait) × List (List Trait) :=
  ((pickRetry acceptPlain fuel r lst points).1,
   (pickPassAux acceptPlain r lst points []).2.2.2)

/-- pick_from_list_enforcing_prereqs (lines 100-126).  The first pass gates
each acceptance on prereq_satisfied against original_traits + traits; on
failure the source retries via plain pick_from_list (line 125), without
prerequisite enforcement. -/
def pick_from_list_enforcing_prereqs (env : SpellEnv) (table : List (String × PrereqPred))
    (fuel : Nat) (r : List Nat) (lst : List (List Trait)) (points : Int)
    (original : List Trait) : Option (List Trait) × List (List Trait) :=
  match pickPassAux (acceptPrereq env table original) r lst points [] with
  | (ts, pl, r', rem) =>
      (if pl = 0 then some ts else (pickRetry acceptPlain fuel r' lst points).1, rem)

/-- next_skill_cost (lines 129-138). -/
def next_skill_cost (cost : Int) : Int :=
  if cost = 0 then 1
  else if cost = 1 then 2
  else if cost = 2 then 4
  else cost + 4

/-- Inner for-loop of pick_or_improve_skills_from_list (lines 157-165):
scan traits for the chosen name; on the first occurrence whose next-tier
marginal cost fits the remaining budget, replace that entry and stop
(break); returns none when the loop completes without break. -/
def improveScan (sn : String) (pl : Int) : List Trait → Option (List Trait × Int)
  | [] => none
  | (n, c, tt) :: rest =>
      if n == sn then
        if next_skill_cost c - c ≤ pl then
          some ((n, next_skill_cost c, tt) :: rest, pl - (next_skill_cost c - c))
        else (improveScan sn pl rest).map (fun p => ((n, c, tt) :: p.1, p.2))
      else (improveScan sn pl rest).map (fun p => ((n, c, tt) :: p.1, p.2))

/-- Value of the loop variable trait_type after the for loop ran to
completion: the type of the last scanned trait, none when traits was empty
(in which case the Python name is unbound). -/
def lastTypeOf (ts : List Trait) : Option TraitType :=
  ts.getLast?.map (fun t => t.2.2)

/-- One iteration of the while loop of pick_or_improve_skills_from_list for
an already-chosen skill name: either an affordable upgrade happened (break),
or the for-else branch appends (skill_name, min_cost, trait_type) where
trait_type is the stale loop variable - an UnboundLocalError when traits
is empty. -/
def improveIteration (sn : String) (traits : List Trait) (pl : Int) (minCost : Int) :
    Except PyErr (List Trait × Int) :=
  match improveScan sn pl traits with
  | some (ts, pl') => .ok (ts, pl')
  | none =>
      match lastTypeOf traits with
      | some tt => .ok (traits ++ [(sn, minCost, tt)], pl - minCost)
      | none => .error .unboundLocal

/-- pick_or_improve_skills_from_list (lines 141-169): while the skill list
is nonempty and budget remains, draw a random name and run one iteration.
The name list never shrinks, so termination is fuel-bounded; none models a
run that exceeds the fuel. -/
def pick_or_improve_skills_from_list (fuel : Nat) (r : List Nat) (skills : List String)
    (points : Int) (traits : List Trait) (minCost : Int) :
    Option (Except PyErr (List Trait × Int)) :=
  match fuel with
  | 0 => none
  | fuel' + 1 =>
      if hs : skills = [] ∨ points ≤ 0 then some (.ok (traits, points))
      else
        have hne : skills ≠ [] := fun hh => hs (Or.inl hh)
        let sn := skills.get ⟨r.headD 0 % skills.length, Nat.mod_lt _ (List.length_pos.mpr hne)⟩
        match improveIteration sn traits points minCost with
        | .error e => some (.error e)
        | .ok (ts', pl') => pick_or_improve_skills_from_list fuel' r.tail skills pl' ts' minCost

/-- C9: next_skill_cost maps 0 to 1, 1 to 2, 2 to 4, adds 4 to every value
above 2, strictly increases on every nonnegative cost, and iterating from 0
reproduces 0, 1, 2, 4, 8, 12 over the first five steps. -/
theorem claim_C9_cost_progression :
    (next_skill_cost 0 = 1 ∧ next_skill_cost 1 = 2 ∧ next_skill_cost 2 = 4) ∧
    (∀ c : Int, 2 < c → next_skill_cost c = c + 4) ∧
    (∀ c : Int, 0 ≤ c → c < next_skill_cost c) ∧
    (next_skill_cost^[1] 0 = 1 ∧ next_skill_cost^[2] 0 = 2 ∧
     next_skill_cost^[3] 0 = 4 ∧ next_skill_cost^[4] 0 = 8 ∧
     next_skill_cost^[5] 0 = 12) := by
  refine ⟨⟨by decide, by decide, by decide⟩, ?_, ?_, ?_⟩
  · intro c hc
    unfold next_skill_cost
    rw [if_neg (by omega), if_neg (by omega), if_neg (by omega)]
  · intro c _
    unfold next_skill_cost
    split_ifs <;> omega
  · refine ⟨by decide, by decide, by decide, by decide, by decide⟩

/-- Witness for claim C9 at concrete inputs 5 and 7. -/
theorem claim_C9_cost_progression_witness :
    (2 < (5 : Int) ∧ next_skill_cost 5 = 5 + 4) ∧
    (0 ≤ (7 : Int) ∧ (7 : Int) < next_skill_cost 7) :=
  ⟨⟨by decide, claim_C9_cost_progression.2.1 5 (by decide)⟩,
   ⟨by decide, claim_C9_cost_progression.2.2.1 7 (by decide)⟩⟩

/-- Summed cost distributes over appending one trait. -/
theorem sumCost_append_one (ts : List Trait) (t : Trait) :
    sumCost (ts ++ [t]) = sumCost ts + traitCost t := by
  simp [sumCost]

/-- A successful scan returns an element of the group that passed the
acceptance test. -/
theorem scanGroup_sound (accept : Trait → Bool) (r : List Nat) (g : List Trait) :
    ∀ tup r', scanGroup accept r g = (some tup, r') → accept tup = true ∧ tup ∈ g := by
  induction r, g using scanGroup.induct accept with
  | case1 r =>
      intro tup r' h
      rw [scanGroup] at h
      simp at h
  | case2 r g hg tup0 hacc =>
      intro tup r' h
      rw [scanGroup, dif_neg hg] at h
      rw [if_pos hacc] at h
      injection h with h1 h2
      injection h1 with h1
      subst h1
      exact ⟨hacc, List.get_mem g _ _⟩
  | case3 r g hg tup0 hacc ih =>
      intro tup r' h
      rw [scanGroup, dif_neg hg] at h
      rw [if_neg hacc] at h
      obtain ⟨h1, h2⟩ := ih tup r' h
      exact ⟨h1, List.mem_of_mem_erase h2⟩

/-- When the inner loop accepts nothing, it has run the group down to
empty: every alternative was drawn, rejected and removed in turn. -/
theorem scanGroup_none (accept : Trait → Bool) (r : List Nat) (g : List Trait) :
    ∀ r' gF, scanGroup accept r g = (none, r', gF) → gF = [] := by
  induction r, g using scanGroup.induct accept with
  | case1 r =>
      intro r' gF h
      rw [scanGroup] at h
      simp at h
      exact h.2
  | case2 r g hg tup0 hacc =>
      intro r' gF h
      rw [scanGroup, dif_neg hg] at h
      rw [if_pos hacc] at h
      simp at h
  | case3 r g hg tup0 hacc ih =>
      intro r' gF h
      rw [scanGroup, dif_neg hg] at h
      rw [if_neg hacc] at h
      exact ih r' gF h

/-- Bookkeeping invariant of one pass: the cost accepted so far plus the
remaining budget is conserved. -/
theorem pickPassAux_sum (accept : Int → List Trait → Trait → Bool) (r : List Nat)
    (lst : List (List Trait)) (pl : Int) (traits : List Trait) :
    ∀ ts pl' r' rem, pickPassAux accept r lst pl traits = (ts, pl', r', rem) →
      sumCost ts + pl' = sumCost traits + pl := by
  induction r, lst, pl, traits using pickPassAux.induct accept with
  | case1 r lst pl traits hstop =>
      intro ts pl' r' rem h
      rw [pickPassAux, dif_pos hstop] at h
      injection h with h1 h
      injection h with h2 h
      subst h1; subst h2
      ring
  | case2 r lst pl traits hstop hne i g tup r2 gFin hscan ih =>
      intro ts pl' r' rem h
      rw [pickPassAux, dif_neg hstop] at h
      dsimp only [] at h
      rw [hscan] at h
      have := ih ts pl' r' rem h
      rw [sumCost_append_one] at this
      omega
  | case3 r lst pl traits hstop hne i g r2 gFin hscan ih =>
      intro ts pl' r' rem h
      rw [pickPassAux, dif_neg hstop] at h
      dsimp only [] at h
      rw [hscan] at h
      exact ih ts pl' r' rem h

/-- Each iteration of the outer loop runs lst.remove(lst2) exactly once, so
one pass never lengthens the pool list, and strictly shortens it whenever
at least one iteration runs (pool nonempty and points_left nonzero). -/
theorem pickPassAux_length (accept : Int → List Trait → Trait → Bool) (r : List Nat)
    (lst : List (List Trait)) (pl : Int) (traits : List Trait) :
    ∀ ts pl' r' rem, pickPassAux accept r lst pl traits = (ts, pl', r', rem) →
      rem.length ≤ lst.length ∧
      (¬ (lst = [] ∨ pl = 0) → rem.length < lst.length) := by
  induction r, lst, pl, traits using pickPassAux.induct accept with
  | case1 r lst pl traits hstop =>
      intro ts pl' r' rem h
      rw [pickPassAux, dif_pos hstop] at h
      injection h with h1 h
      injection h with h2 h
      injection h with h3 h4
      subst h4
      exact ⟨le_refl _, fun hn => absurd hstop hn⟩
  | case2 r lst pl traits hstop hne i g tup r2 gFin hscan ih =>
      intro ts pl' r' rem h
      rw [pickPassAux, dif_neg hstop] at h
      dsimp only [] at h
      rw [hscan] at h
      have hgmem : g ∈ lst := List.get_mem lst _ _
      have hpos : 0 < lst.length := List.length_pos.mpr hne
      have hr := (ih ts pl' r' rem h).1
      have hrem : rem.length ≤ lst.length - 1 := by
        split at hr
        · rw [List.length_set, List.length_erase_of_mem hgmem] at hr
          exact hr
        · rw [List.length_erase_of_mem hgmem] at hr
          exact hr
      exact ⟨by omega, fun _ => by omega⟩
  | case3 r lst pl traits hstop hne i g r2 gFin hscan ih =>
      intro ts pl' r' rem h
      rw [pickPassAux, dif_neg hstop] at h
      dsimp only [] at h
      rw [hscan] at h
      have hgmem : g ∈ lst := List.get_mem lst _ _
      have hpos : 0 < lst.length := List.length_pos.mpr hne
      have hr := (ih ts pl' r' rem h).1
      have hrem : rem.length ≤ lst.length - 1 := by
        split at hr
        · rw [List.length_set, List.length_erase_of_mem hgmem] at hr
          exact hr
        · rw [List.length_erase_of_mem hgmem] at hr
          exact hr
      exact ⟨by omega, fun _ => by omega⟩

/-- Any traits returned by the retry chain sum exactly to the target. -/
theorem pickRetry_sum (accept : Int → List Trait → Trait → Bool) (fuel : Nat)
    (r : List Nat) (lst : List (List Trait)) (points : Int) :
    ∀ ts r', pickRetry accept fuel r lst points = (some ts, r') → sumCost ts = points := by
  induction fuel, r, lst, points using pickRetry.induct accept with
  | case1 r lst points =>
      intro ts r' h
      rw [pickRetry] at h
      simp at h
  | case2 r lst points fuel' ts0 r0 rem0 hpass =>
      intro ts r' h
      rw [pickRetry, hpass] at h
      dsimp only [] at h
      rw [if_pos rfl] at h
      injection h with h1 h2
      injection h1 with h1
      have h3 := pickPassAux_sum accept r lst points [] ts0 0 r0 rem0 hpass
      rw [← h1]
      simpa [sumCost] using h3
  | case3 r lst points fuel' ts0 pl0 r0 rem0 hpass hpl ih =>
      intro ts r' h
      rw [pickRetry, hpass] at h
      dsimp only [] at h
      rw [if_neg hpl] at h
      exact ih ts r' h

/-- C1: whenever pick_from_list or pick_from_list_enforcing_prereqs returns
a result, the weights of the returned entries sum exactly to the target. -/
theorem claim_C1_exactness :
    (∀ (fuel : Nat) (r : List Nat) (lst : List (List Trait)) (points : Int)
       (ts : List Trait) (rem : List (List Trait)),
       pick_from_list fuel r lst points = (some ts, rem) → sumCost ts = points) ∧
    (∀ (env : SpellEnv) (table : List (String × PrereqPred)) (fuel : Nat) (r : List Nat)
       (lst : List (List Trait)) (points : Int) (original : List Trait)
       (ts : List Trait) (rem : List (List Trait)),
       pick_from_list_enforcing_prereqs env table fuel r lst points original = (some ts, rem) →
       sumCost ts = points) := by
  constructor
  · intro fuel r lst points ts rem h
    have h1 : (pickRetry acceptPlain fuel r lst points).1 = some ts := by
      have h2 := congrArg Prod.fst h
      simpa [pick_from_list] using h2
    have h2 : pickRetry acceptPlain fuel r lst points =
        (some ts, (pickRetry acceptPlain fuel r lst points).2) := by
      rw [← h1]
    exact pickRetry_sum acceptPlain fuel r lst points ts _ h2
  · intro env table fuel r lst points original ts rem h
    rcases hp : pickPassAux (acceptPrereq env table original) r lst points [] with
      ⟨ts0, pl0, r0, rem0⟩
    rw [pick_from_list_enforcing_prereqs, hp] at h
    dsimp only [] at h
    by_cases hpl : pl0 = 0
    · rw [if_pos hpl] at h
      injection h with h1 h2
      injection h1 with h1
      have h3 := pickPassAux_sum (acceptPrereq env table original) r lst points [] ts0 pl0 r0 rem0 hp
      rw [← h1]
      rw [hpl] at h3
      simpa [sumCost] using h3
    · rw [if_neg hpl] at h
      injection h with h1 h2
      have h4 : pickRetry acceptPlain fuel r0 lst points =
          (some ts, (pickRetry acceptPlain fuel r0 lst points).2) := by
        rw [← h1]
      exact pickRetry_sum acceptPlain fuel r0 lst points ts _ h4

/-- Witness for claim C1: a concrete run of each selector together with the
exactness fact obtained from the theorem. -/
theorem claim_C1_exactness_witness :
    (pick_from_list 1 [1, 0] [[("A", 5, TraitType.SK), ("B", 9, TraitType.SK)],
        [("C", 30, TraitType.SK)]] 30 =
      (some [("C", 30, TraitType.SK)], [[("A", 5, TraitType.SK), ("B", 9, TraitType.SK)]]) ∧
     sumCost [("C", 30, TraitType.SK)] = 30) ∧
    (pick_from_list_enforcing_prereqs ⟨[]⟩ [] 1 [0, 0] [[("D", 4, TraitType.SP)]] 4 [] =
      (some [("D", 4, TraitType.SP)], []) ∧
     sumCost [("D", 4, TraitType.SP)] = 4) := by
  have hrun1 : pick_from_list 1 [1, 0] [[("A", 5, TraitType.SK), ("B", 9, TraitType.SK)],
      [("C", 30, TraitType.SK)]] 30 =
      (some [("C", 30, TraitType.SK)], [[("A", 5, TraitType.SK), ("B", 9, TraitType.SK)]]) := by
    simp +decide [pick_from_list, pickRetry, pickPassAux, scanGroup, acceptPlain, traitCost]
  have hrun2 : pick_from_list_enforcing_prereqs ⟨[]⟩ [] 1 [0, 0] [[("D", 4, TraitType.SP)]] 4 [] =
      (some [("D", 4, TraitType.SP)], []) := by
    simp +decide [pick_from_list_enforcing_prereqs, pickRetry, pickPassAux, scanGroup,
      acceptPlain, acceptPrereq, prereq_satisfied, traitCost]
  exact ⟨⟨hrun1, claim_C1_exactness.1 1 [1, 0] _ 30 _ _ hrun1⟩,
         ⟨hrun2, claim_C1_exactness.2 ⟨[]⟩ [] 1 [0, 0] _ 4 [] _ _ hrun2⟩⟩

/-- C3 counterexample: pick_from_list does mutate the caller's list; after
a call on a one-group pool with target 1 the caller's list is empty, not
equal to its original value.  Second conjunct: the mutation is not even a
plain removal of groups - with two equal groups, lst.remove(lst2) deletes
the first one while the randomly chosen second group object stays in the
caller's list, stripped in place of its rejected alternative: the list
left behind, [[("B",1)]], is not a subsequence of the original either. -/
theorem claim_C3_counterexample :
    (pick_from_list 1 [0, 0] [[("A", 1, TraitType.SK)]] 1).2 ≠
      [[("A", 1, TraitType.SK)]] ∧
    (pick_from_list 1 [1, 0, 0]
        [[("A", 5, TraitType.SK), ("B", 1, TraitType.SK)],
         [("A", 5, TraitType.SK), ("B", 1, TraitType.SK)]] 1).2 =
      [[("B", 1, TraitType.SK)]] := by
  constructor
  · simp +decide [pick_from_list, pickRetry, pickPassAux, scanGroup, acceptPlain, traitCost]
  · simp +decide [pick_from_list, pickRetry, pickPassAux, scanGroup, acceptPlain, traitCost]

/-- C3 amended: pick_from_list operates destructively on the caller's list
(only the retries use the private deepcopy): every iteration of the first
pass removes one element from it via lst.remove(lst2), so the list left
behind is never longer than the original, and is strictly shorter - hence
never equal to its original value - whenever the pool was nonempty and the
target nonzero. -/
theorem claim_C3_caller_list_mutation :
    ∀ (fuel : Nat) (r : List Nat) (lst : List (List Trait)) (points : Int),
      (pick_from_list fuel r lst points).2.length ≤ lst.length ∧
      (lst ≠ [] → points ≠ 0 →
        (pick_from_list fuel r lst points).2.length < lst.length) := by
  intro fuel r lst points
  have h := pickPassAux_length acceptPlain r lst points []
    (pickPassAux acceptPlain r lst points []).1
    (pickPassAux acceptPlain r lst points []).2.1
    (pickPassAux acceptPlain r lst points []).2.2.1
    (pickPassAux acceptPlain r lst points []).2.2.2 rfl
  simp only [pick_from_list]
  exact ⟨h.1, fun h1 h2 => h.2 (by tauto)⟩

/-- Witness for the amended claim C3 at a concrete run: a nonempty pool
and a nonzero target leave a strictly shorter caller's list behind. -/
theorem claim_C3_caller_list_mutation_witness :
    (pick_from_list 1 [0, 0] [[("A", 1, TraitType.SK)]] 1).2.length <
      [[("A", 1, TraitType.SK)]].length :=
  (claim_C3_caller_list_mutation 1 [0, 0] [[("A", 1, TraitType.SK)]] 1).2
    (by simp) (by simp)

/-- C2 (evidence of the defect): spell S is gated on name-is Magery, the
pool is [[S]] with target 1 and an empty prior selection.  The first pass
rejects S because its prerequisite fails, so the source retries - but the
retry (dfrandom.py line 125) calls plain pick_from_list, which accepts S.
The call returns S although S's prerequisite holds neither for the prior
selection nor for any selection formed during the call. -/
theorem claim_C2_retry_drops_prereqs :
    pick_from_list_enforcing_prereqs ⟨[]⟩ [("S", PrereqPred.nameIs "Magery")] 1
        [0, 0, 0, 0] [[("S", 1, TraitType.SP)]] 1 [] =
      (some [("S", 1, TraitType.SP)], []) ∧
    prereq_satisfied ⟨[]⟩ [("S", PrereqPred.nameIs "Magery")] "S" [] = false ∧
    prereq_satisfied ⟨[]⟩ [("S", PrereqPred.nameIs "Magery")] "S"
      [("S", 1, TraitType.SP)] = false := by
  refine ⟨?_, ?_, ?_⟩
  · simp +decide [pick_from_list_enforcing_prereqs, pickRetry, pickPassAux, scanGroup,
      acceptPlain, acceptPrereq, prereq_satisfied, traitCost, evalPred, traitNamesOf,
      dedupFirstAux, traitName]
  · simp +decide [prereq_satisfied, evalPred, traitNamesOf, dedupFirstAux, traitName]
  · simp +decide [prereq_satisfied, evalPred, traitNamesOf, dedupFirstAux, traitName]

/-- C6 (evidence of the defect): pick_or_improve_skills_from_list with
skill set containing only X, budget 3, an EMPTY selection and base weight 1
crashes on its first iteration: the for-else branch references the loop
variable trait_type, which was never assigned because traits is empty
(Python UnboundLocalError), instead of appending X and improving it. -/
theorem claim_C6_scenario_c_crashes :
    pick_or_improve_skills_from_list 10 [0, 0, 0] ["X"] 3 [] 1 =
      some (.error .unboundLocal) := by
  simp +decide [pick_or_improve_skills_from_list, improveIteration, improveScan, lastTypeOf]

/-- C7 counterexample: an iteration whose chosen name X already appears in
the selection with an unaffordable upgrade (marginal cost 2 > budget 1)
does NOT leave the selection unchanged: the for-else branch appends a
duplicate (X, min_cost) entry and spends min_cost. -/
theorem claim_C7_counterexample :
    improveIteration "X" [("X", 2, TraitType.SK)] 1 1 =
      .ok ([("X", 2, TraitType.SK), ("X", 1, TraitType.SK)], 0) ∧
    pick_or_improve_skills_from_list 2 [0, 0] ["X"] 1 [("X", 2, TraitType.SK)] 1 =
      some (.ok ([("X", 2, TraitType.SK), ("X", 1, TraitType.SK)], 0)) := by
  constructor
  · simp +decide [improveIteration, improveScan, lastTypeOf, next_skill_cost]
  · simp +decide [pick_or_improve_skills_from_list, improveIteration, improveScan,
      lastTypeOf, next_skill_cost]

/-- When every occurrence of the chosen name has an unaffordable upgrade,
the inner for loop completes without break. -/
theorem improveScan_none (sn : String) (pl : Int) (traits : List Trait)
    (h : ∀ c tt, (sn, c, tt) ∈ traits → pl < next_skill_cost c - c) :
    improveScan sn pl traits = none := by
  induction traits with
  | nil => rfl
  | cons t rest ih =>
      obtain ⟨n, c, tt⟩ := t
      rw [improveScan]
      by_cases hn : n = sn
      · subst hn
        rw [if_pos (by simp)]
        rw [if_neg (by have := h c tt (by simp); omega)]
        rw [ih (fun c' tt' hm => h c' tt' (List.mem_cons_of_mem _ hm))]
        rfl
      · rw [if_neg (by simpa using hn)]
        rw [ih (fun c' tt' hm => h c' tt' (List.mem_cons_of_mem _ hm))]
        rfl

/-- C7 amended: in an iteration whose chosen name already appears in the
selection but every entry carrying that name has a next-tier marginal cost
exceeding the remaining budget, the selection is NOT left unchanged:
the for loop completes without break and the for-else branch appends a
duplicate entry (name, min_cost, type of the last scanned entry) and
spends min_cost from the budget. -/
theorem claim_C7_unaffordable_appends_duplicate :
    ∀ (sn : String) (traits : List Trait) (pl minCost : Int) (tt : TraitType),
      (∃ c tt0, (sn, c, tt0) ∈ traits) →
      (∀ c tt0, (sn, c, tt0) ∈ traits → pl < next_skill_cost c - c) →
      lastTypeOf traits = some tt →
      improveIteration sn traits pl minCost =
        .ok (traits ++ [(sn, minCost, tt)], pl - minCost) := by
  intro sn traits pl minCost tt _hmem hunaff hlast
  rw [improveIteration, improveScan_none sn pl traits hunaff, hlast]

/-- Witness for the amended claim C7 at a concrete iteration. -/
theorem claim_C7_unaffordable_appends_duplicate_witness :
    improveIteration "X" [("Y", 0, TraitType.AD), ("X", 2, TraitType.SK)] 1 3 =
      .ok ([("Y", 0, TraitType.AD), ("X", 2, TraitType.SK), ("X", 3, TraitType.SK)], 1 - 3) := by
  have h := claim_C7_unaffordable_appends_duplicate "X"
    [("Y", 0, TraitType.AD), ("X", 2, TraitType.SK)] 1 3 TraitType.SK
    ⟨2, TraitType.SK, by simp⟩
    (by
      intro c tt0 hm
      simp at hm
      obtain ⟨h1, h2⟩ := hm
      subst h1
      decide)
    (by simp [lastTypeOf])
  simpa using h

/-- All trait names occurring anywhere in a candidate pool. -/
def poolNames (lst : List (List Trait)) : List String :=
  (lst.map (fun g => g.map traitName)).flatten

/-- Decomposition of the pool names around an erased group. -/
theorem poolNames_erase (lst : List (List Trait)) (g : List Trait) (hg : g ∈ lst) :
    ∃ A B, poolNames lst = A ++ (g.map traitName ++ B) ∧
      poolNames (lst.erase g) = A ++ B := by
  obtain ⟨l1, l2, _, hdec, herase⟩ := List.exists_erase_eq hg
  refine ⟨poolNames l1, poolNames l2, ?_, ?_⟩
  · rw [hdec]; simp [poolNames, List.map_append, List.flatten_append]
  · rw [herase]; simp [poolNames, List.map_append, List.flatten_append]

/-- Flattening is monotone with respect to the subsequence order. -/
theorem flatten_sublist_of_sublist {α : Type} (l1 l2 : List (List α))
    (h : l1.Sublist l2) : l1.flatten.Sublist l2.flatten := by
  induction h with
  | slnil => simp
  | cons a _ ih =>
      rw [List.flatten_cons]
      exact ih.trans (List.sublist_append_right _ _)
  | cons₂ a _ ih =>
      rw [List.flatten_cons, List.flatten_cons]
      exact ih.append_left a

/-- A value sitting at two distinct positions of a list gives a
two-element constant subsequence. -/
theorem pair_sublist_of_gets {α : Type} (a : α) :
    ∀ (l : List α) (i j : Nat) (hji : j < i) (hi : i < l.length)
      (hj : j < l.length), l.get ⟨j, hj⟩ = a → l.get ⟨i, hi⟩ = a →
      ([a, a] : List α).Sublist l := by
  intro l
  induction l with
  | nil =>
      intro i j _ hi
      simp at hi
  | cons x xs ih =>
      intro i j hji hi hj hgj hgi
      cases j with
      | zero =>
          simp only [List.get] at hgj
          subst hgj
          cases i with
          | zero => omega
          | succ i2 =>
              have hmem : x ∈ xs := by
                have h1 := List.get_mem xs i2 (by simpa using hi)
                simp only [List.get] at hgi
                rw [hgi] at h1
                exact h1
              exact List.cons_sublist_cons.mpr (List.singleton_sublist.mpr hmem)
      | succ j2 =>
          cases i with
          | zero => omega
          | succ i2 =>
              have h1 := ih i2 j2 (by omega) (by simpa using hi) (by simpa using hj)
                (by simpa using hgj) (by simpa using hgi)
              exact h1.cons x

/-- Overwriting one slot of the pool with the empty group only drops
names: the new pool's name list is a subsequence of the old one. -/
theorem poolNames_set_nil_sublist :
    ∀ (l : List (List Trait)) (n : Nat),
      (poolNames (l.set n [])).Sublist (poolNames l) := by
  intro l
  induction l with
  | nil =>
      intro n
      simp [poolNames]
  | cons g rest ih =>
      intro n
      cases n with
      | zero =>
          simp only [List.set, poolNames, List.map_cons, List.flatten_cons,
            List.map_nil, List.nil_append]
          exact List.sublist_append_right _ _
      | succ n2 =>
          simp only [List.set, poolNames, List.map_cons, List.flatten_cons]
          exact (ih n2).append_left _

/-- Under globally distinct pool names, a group equal to an earlier group
of the pool must be empty (otherwise its names would occur twice). -/
theorem dup_group_nil (lst : List (List Trait)) (hnd : (poolNames lst).Nodup)
    (g : List Trait) (i : Nat) (hi : i < lst.length)
    (hgi : lst.get ⟨i, hi⟩ = g) (hmem : g ∈ lst.take i) : g = [] := by
  obtain ⟨j0, hgj0⟩ := List.mem_iff_get.mp hmem
  have hj : (j0 : Nat) < lst.length := by
    have h1 := j0.2
    simp [List.length_take] at h1
    omega
  have hji : (j0 : Nat) < i := by
    have h1 := j0.2
    simp [List.length_take] at h1
    omega
  have hgj : lst.get ⟨j0, hj⟩ = g := by
    rw [← hgj0]
    exact List.get_take lst hj hji
  have hpair : ([g, g] : List (List Trait)).Sublist lst :=
    pair_sublist_of_gets g lst i j0 hji hi hj hgj hgi
  have hfl : (([g, g].map (fun h => h.map traitName)).flatten).Sublist (poolNames lst) :=
    flatten_sublist_of_sublist _ _ (hpair.map _)
  have hnd2 : ((g.map traitName) ++ (g.map traitName)).Nodup := by
    refine List.Nodup.sublist ?_ hnd
    simpa using hfl
  cases hgN : g.map traitName with
  | nil => exact List.map_eq_nil.mp hgN
  | cons n ns =>
      exfalso
      rw [hgN] at hnd2
      have hdisj := (List.nodup_append.mp hnd2).2.2
      exact hdisj (List.mem_cons_self n ns) (List.mem_cons_self n ns)

/-- If the names in the pool are globally distinct and disjoint from the
names accepted so far, all names in the pass result are distinct. -/
theorem pickPassAux_nodup (accept : Int → List Trait → Trait → Bool) (r : List Nat)
    (lst : List (List Trait)) (pl : Int) (traits : List Trait) :
    (poolNames lst).Nodup →
    (traits.map traitName).Nodup →
    (∀ n, n ∈ traits.map traitName → n ∉ poolNames lst) →
    ((pickPassAux accept r lst pl traits).1.map traitName).Nodup := by
  induction r, lst, pl, traits using pickPassAux.induct accept with
  | case1 r lst pl traits hstop =>
      intro _ h2 _
      rw [pickPassAux, dif_pos hstop]
      exact h2
  | case2 r lst pl traits hstop hne i g tup r2 gFin hscan ih =>
      intro h1 h2 h3
      rw [pickPassAux, dif_neg hstop]
      dsimp only []
      rw [hscan]
      have hgmem : g ∈ lst := List.get_mem lst _ _
      have htup : tup ∈ g := (scanGroup_sound _ _ _ tup (r2, gFin) hscan).2
      by_cases hc : g ∈ lst.take i
      · exfalso
        have hgnil : g = [] :=
          dup_group_nil lst h1 g i (Nat.mod_lt _ (List.length_pos.mpr hne)) rfl hc
        rw [hgnil] at htup
        exact (List.not_mem_nil tup) htup
      simp only [dif_neg hc, if_neg hc] at ih ⊢
      have htupname : traitName tup ∈ g.map traitName := List.mem_map_of_mem _ htup
      obtain ⟨A, B, hpool, hkey⟩ := poolNames_erase lst g hgmem
      have hsub : ∀ n, n ∈ poolNames (lst.erase g) → n ∈ poolNames lst := by
        intro n hc
        rw [hkey] at hc
        rw [hpool]
        rcases List.mem_append.mp hc with h | h
        · exact List.mem_append_left _ h
        · exact List.mem_append_right _ (List.mem_append_right _ h)
      have hperm : (poolNames lst).Perm (g.map traitName ++ (A ++ B)) := by
        rw [hpool, ← List.append_assoc, ← List.append_assoc]
        exact List.perm_append_comm.append_right B
      have hnodup2 : (g.map traitName ++ (A ++ B)).Nodup := hperm.nodup_iff.mp h1
      obtain ⟨hgN, hrest, hdisj2⟩ := List.nodup_append.mp hnodup2
      have htnotin : traitName tup ∉ poolNames (lst.erase g) := by
        rw [hkey]
        exact fun hc => hdisj2 htupname hc
      have htup_in_pool : traitName tup ∈ poolNames lst := by
        rw [hpool]
        exact List.mem_append_right _ (List.mem_append_left _ htupname)
      apply ih
      · rw [hkey]; exact hrest
      · simp only [List.map_append]
        refine List.Nodup.append h2 (by simp) ?_
        intro a ha hb
        simp only [List.map_cons, List.map_nil, List.mem_singleton] at hb
        subst hb
        exact h3 _ ha htup_in_pool
      · intro n hn
        simp only [List.map_append, List.mem_append] at hn
        rcases hn with hn | hn
        · exact fun hc => h3 n hn (hsub n hc)
        · simp only [List.map_cons, List.map_nil, List.mem_singleton] at hn
          subst hn
          exact htnotin
  | case3 r lst pl traits hstop hne i g r2 gFin hscan ih =>
      intro h1 h2 h3
      rw [pickPassAux, dif_neg hstop]
      dsimp only []
      rw [hscan]
      have hgmem : g ∈ lst := List.get_mem lst _ _
      have hgF : gFin = [] := scanGroup_none _ _ _ _ _ hscan
      obtain ⟨A, B, hpool, hkey⟩ := poolNames_erase lst g hgmem
      have hsub : ∀ n, n ∈ poolNames (lst.erase g) → n ∈ poolNames lst := by
        intro n hc
        rw [hkey] at hc
        rw [hpool]
        rcases List.mem_append.mp hc with h | h
        · exact List.mem_append_left _ h
        · exact List.mem_append_right _ (List.mem_append_right _ h)
      have hperm : (poolNames lst).Perm (g.map traitName ++ (A ++ B)) := by
        rw [hpool, ← List.append_assoc, ← List.append_assoc]
        exact List.perm_append_comm.append_right B
      have hnodup2 : (g.map traitName ++ (A ++ B)).Nodup := hperm.nodup_iff.mp h1
      obtain ⟨hgN, hrest, hdisj2⟩ := List.nodup_append.mp hnodup2
      have hnderase : (poolNames (lst.erase g)).Nodup := by
        rw [hkey]; exact hrest
      have hsl : (poolNames (if g ∈ lst.take i then (lst.erase g).set (i - 1) gFin
          else lst.erase g)).Sublist (poolNames (lst.erase g)) := by
        rw [hgF]
        split
        · exact poolNames_set_nil_sublist _ _
        · exact List.Sublist.refl _
      apply ih
      · exact List.Nodup.sublist hsl hnderase
      · exact h2
      · intro n hn
        exact fun hc => h3 n hn (hsub n (hsl.subset hc))

/-- Any successful retry-chain result has distinct names when the pool's
names are globally distinct (each pass starts from the untouched pool). -/
theorem pickRetry_nodup (accept : Int → List Trait → Trait → Bool) (fuel : Nat)
    (r : List Nat) (lst : List (List Trait)) (points : Int) :
    ∀ ts r', (poolNames lst).Nodup → pickRetry accept fuel r lst points = (some ts, r') →
      (ts.map traitName).Nodup := by
  induction fuel, r, lst, points using pickRetry.induct accept with
  | case1 r lst points =>
      intro ts r' _ h
      rw [pickRetry] at h
      simp at h
  | case2 r lst points fuel' ts0 r0 rem0 hpass =>
      intro ts r' hpool h
      rw [pickRetry, hpass] at h
      dsimp only [] at h
      rw [if_pos rfl] at h
      injection h with h1 h2
      injection h1 with h1
      have h3 := pickPassAux_nodup accept r lst points [] hpool (by simp) (by simp)
      rw [hpass] at h3
      rw [← h1]
      exact h3
  | case3 r lst points fuel' ts0 pl0 r0 rem0 hpass hpl ih =>
      intro ts r' hpool h
      rw [pickRetry, hpass] at h
      dsimp only [] at h
      rw [if_neg hpl] at h
      exact ih ts r' hpool h

/-- C8 counterexample: when the same name occurs in two different candidate
groups, pick_from_list happily returns it twice - there is no duplicate
check in the code. -/
theorem claim_C8_counterexample :
    pick_from_list 1 [0, 0, 0, 0] [[("A", 1, TraitType.SK)], [("A", 1, TraitType.SK)]] 2 =
      (some [("A", 1, TraitType.SK), ("A", 1, TraitType.SK)], []) ∧
    ¬ (([("A", 1, TraitType.SK), ("A", 1, TraitType.SK)].map traitName).Nodup) := by
  constructor
  · simp +decide [pick_from_list, pickRetry, pickPassAux, scanGroup, acceptPlain, traitCost]
  · decide

/-- C8 amended: the no-duplicates invariant holds only under the implicit
precondition (maintained by the callers) that all names across all groups
of the pool are pairwise distinct; under that precondition every result of
pick_from_list carries pairwise distinct names. -/
theorem claim_C8_no_duplicates_distinct_pool :
    ∀ (fuel : Nat) (r : List Nat) (lst : List (List Trait)) (points : Int)
      (ts : List Trait) (rem : List (List Trait)),
      (poolNames lst).Nodup →
      pick_from_list fuel r lst points = (some ts, rem) →
      (ts.map traitName).Nodup := by
  intro fuel r lst points ts rem hpool h
  have h1 : (pickRetry acceptPlain fuel r lst points).1 = some ts := by
    have h2 := congrArg Prod.fst h
    simpa [pick_from_list] using h2
  have h2 : pickRetry acceptPlain fuel r lst points =
      (some ts, (pickRetry acceptPlain fuel r lst points).2) := by
    rw [← h1]
  exact pickRetry_nodup acceptPlain fuel r lst points ts _ hpool h2

/-- Witness for the amended claim C8 at a concrete run. -/
theorem claim_C8_no_duplicates_distinct_pool_witness :
    (poolNames [[("A", 5, TraitType.SK), ("B", 9, TraitType.SK)],
       [("C", 30, TraitType.SK)]]).Nodup ∧
    (([("C", 30, TraitType.SK)] : List Trait).map traitName).Nodup := by
  have hpool : (poolNames [[("A", 5, TraitType.SK), ("B", 9, TraitType.SK)],
      [("C", 30, TraitType.SK)]]).Nodup := by
    simp +decide [poolNames, traitName]
  have hrun : pick_from_list 1 [1, 0] [[("A", 5, TraitType.SK), ("B", 9, TraitType.SK)],
      [("C", 30, TraitType.SK)]] 30 =
      (some [("C", 30, TraitType.SK)], [[("A", 5, TraitType.SK), ("B", 9, TraitType.SK)]]) := by
    simp +decide [pick_from_list, pickRetry, pickPassAux, scanGroup, acceptPlain, traitCost]
  exact ⟨hpool, claim_C8_no_duplicates_distinct_pool 1 [1, 0] _ 30 _ _ hpool hrun⟩

/-- Minimal model of an ElementTree element: tag, attributes, text and
child elements.  A text of None is modelled as the empty string. -/
inductive XmlEl where
  | mk (tag : String) (attrs : List (String × String)) (txt : String)
       (children : List XmlEl)

/-- Tag of an element. -/
def XmlEl.tag : XmlEl → String
  | .mk t _ _ _ => t

/-- Attributes of an element. -/
def XmlEl.attrs : XmlEl → List (String × String)
  | .mk _ a _ _ => a

/-- Text of an element. -/
def XmlEl.txt : XmlEl → String
  | .mk _ _ x _ => x

/-- Child elements. -/
def XmlEl.children : XmlEl → List XmlEl
  | .mk _ _ _ c => c

/-- el.get(key): attribute lookup. -/
def XmlEl.get (el : XmlEl) (k : String) : Option String :=
  List.lookup k el.attrs

/-- el.find(tag): first direct child with the given tag. -/
def XmlEl.find (el : XmlEl) (t : String) : Option XmlEl :=
  el.children.find? (fun c => c.tag == t)

/-- x is not None and x.get("compare") == v. -/
def hasCompare (oe : Option XmlEl) (v : String) : Bool :=
  match oe with
  | some e => e.get "compare" == some v
  | none => false

/-- Errors during prerequisite compilation: the failed assert carrying the
offending element (assert False, "..." % et.tostring(el)), the failed
assert carrying an unknown child tag, and other Python exceptions. -/
inductive ParseErr where
  | assertFail (el : XmlEl)
  | unknownTag (tag : String)
  | pyError (msg : String)

/-- int(...) on an attribute or text, as used by the compiler. -/
def intAttr (s : String) : Except ParseErr Int :=
  match pyInt s with
  | some n => .ok n
  | none => .error (.pyError "ValueError int")

/-- _parse_spell_prereq (dfrandom.py lines 2917-3050): each recognized
child shape yields the predicate its emitted source computes; every
unrecognized shape falls through to assert False with the element. -/
def parseSpellPrereq (el : XmlEl) : Except ParseErr PrereqPred :=
  match el.children with
  | [child] =>
      if child.tag = "name" then
        if child.get "compare" = some "is" then .ok (.nameIs (pyTitle child.txt))
        else if child.get "compare" = some "contains" then .ok (.nameContains child.txt)
        else if child.get "compare" = some "starts with" then
          .ok (.nameStarts (pyTitle child.txt))
        else .error (.assertFail el)
      else if child.tag = "college_count" then
        if child.get "compare" = some "at_least" then
          (intAttr child.txt).map (fun n => .collegeCountAtLeast n)
        else .error (.assertFail el)
      else if child.tag = "college" then
        if child.get "compare" = some "contains" then .ok (.collegeContains (pyTitle child.txt))
        else if child.get "compare" = some "is" then .ok (.collegeIs child.txt)
        else .error (.assertFail el)
      else .error (.assertFail el)
  | [_, _] =>
      if (el.find "college").isSome ∧ (el.find "quantity").isSome then
        match el.find "college", el.find "quantity" with
        | some collegeEl, some quantityEl =>
            if hasCompare (some collegeEl) "contains" ∧ hasCompare (some quantityEl) "at_least" then
              (intAttr quantityEl.txt).map (fun n => .collegeQtyAtLeast collegeEl.txt n)
            else if hasCompare (some collegeEl) "is" ∧ hasCompare (some quantityEl) "at_least" then
              (intAttr quantityEl.txt).map (fun n => .collegeQtyAtLeast collegeEl.txt n)
            else .error (.assertFail el)
        | _, _ => .error (.assertFail el)
      else if (el.find "name").isSome ∧ (el.find "quantity").isSome then
        match el.find "name", el.find "quantity" with
        | some nameEl, some quantityEl =>
            if hasCompare (some nameEl) "starts with" ∧ hasCompare (some quantityEl) "at_least" then
              (intAttr quantityEl.txt).map (fun n => .spellsStartingAtLeast (pyTitle nameEl.txt) n)
            else if hasCompare (some nameEl) "is" ∧ hasCompare (some quantityEl) "is" then
              .ok (.nameIs (pyTitle nameEl.txt))
            else if hasCompare (some nameEl) "contains" ∧ hasCompare (some quantityEl) "at_least" then
              (intAttr quantityEl.txt).map (fun n => .spellsContainingAtLeast (pyTitle nameEl.txt) n)
            else if hasCompare (some nameEl) "is" ∧ hasCompare (some quantityEl) "at_least" then
              (intAttr quantityEl.txt).map (fun n => .nameIsCountAtLeast (pyTitle nameEl.txt) n)
            else if hasCompare (some nameEl) "is anything" ∧ hasCompare (some quantityEl) "at_least" then
              (intAttr quantityEl.txt).map (fun n => .spellCountAtLeast n)
            else .error (.assertFail el)
        | _, _ => .error (.assertFail el)
      else if (el.find "any").isSome ∧ (el.find "quantity").isSome then
        match el.find "quantity" with
        | some quantityEl =>
            if hasCompare (some quantityEl) "at_least" then
              (intAttr quantityEl.txt).map (fun n => .spellCountAtLeast n)
            else .error (.assertFail el)
        | none => .error (.assertFail el)
      else .error (.assertFail el)
  | _ => .error (.assertFail el)

/-- _parse_advantage_prereq (lines 3053-3192), including the NameError when
has="no" and the element does not have exactly two children (name_el is
then referenced before assignment). -/
def parseAdvantagePrereq (el : XmlEl) : Except ParseErr PrereqPred :=
  if el.get "has" = some "no" then
    if el.children.length = 2 then
      if hasCompare (el.find "name") "starts with" ∧ hasCompare (el.find "notes") "is anything" then
        .ok (.advNotStarts (pyTitle (((el.find "name").map XmlEl.txt).getD "")))
      else if hasCompare (el.find "name") "is" ∧ hasCompare (el.find "notes") "is anything" then
        .ok (.advNotIs (pyTitle (((el.find "name").map XmlEl.txt).getD "")))
      else if hasCompare (el.find "name") "contains" ∧ hasCompare (el.find "notes") "is anything" then
        .ok (.advNotContains (pyTitle (((el.find "name").map XmlEl.txt).getD "")))
      else .error (.assertFail el)
    else .error (.pyError "NameError name_el")
  else if el.children.length = 3 then
    match el.find "name", el.find "level", el.find "notes" with
    | some nameEl, some levelEl, some notesEl =>
        if nameEl.get "compare" = some "is" ∧ levelEl.get "compare" = some "at_least" ∧
            notesEl.get "compare" = some "is anything" then
          (intAttr levelEl.txt).map (fun n => .advLevelAtLeast (pyTitle nameEl.txt) n)
        else if nameEl.get "compare" = some "is" ∧ levelEl.get "compare" = some "at_least" ∧
            notesEl.get "compare" = some "contains" then
          (intAttr levelEl.txt).map (fun n => .advLevelNotesContains (pyTitle nameEl.txt) notesEl.txt n)
        else if nameEl.get "compare" = some "is" ∧ levelEl.get "compare" = some "at_least" ∧
            notesEl.get "compare" = some "does not contain" then
          (intAttr levelEl.txt).map (fun n => .advLevelNotesAbsent (pyTitle nameEl.txt) notesEl.txt n)
        else if nameEl.get "compare" = some "contains" ∧ levelEl.get "compare" = some "at_least" ∧
            notesEl.get "compare" = some "is anything" then
          (intAttr levelEl.txt).map (fun n => .advContainsLevelAtLeast (pyTitle nameEl.txt) n)
        else .error (.assertFail el)
    | _, _, _ => .error (.assertFail el)
  else if el.children.length = 2 then
    if hasCompare (el.find "name") "is" ∧ hasCompare (el.find "notes") "is anything" then
      .ok (.advNameIs (pyTitle (((el.find "name").map XmlEl.txt).getD "")))
    else if hasCompare (el.find "name") "starts with" ∧ hasCompare (el.find "notes") "contains" then
      .ok (.advStartsNotesContains (pyTitle (((el.find "name").map XmlEl.txt).getD ""))
        (((el.find "notes").map XmlEl.txt).getD ""))
    else if hasCompare (el.find "name") "contains" ∧ hasCompare (el.find "notes") "is anything" then
      .ok (.advContains (pyTitle (((el.find "name").map XmlEl.txt).getD "")))
    else .error (.assertFail el)
  else .error (.assertFail el)

/-- _parse_attribute_prereq (lines 3195-3216): int(el.text) is evaluated
before the compare check; a missing which attribute only fails (None has
no upper()) in the recognized at_least branch. -/
def parseAttributePrereq (el : XmlEl) : Except ParseErr PrereqPred :=
  match pyInt el.txt with
  | none => .error (.pyError "ValueError int")
  | some lvl =>
      if el.get "compare" = some "at_least" then
        match el.get "which" with
        | some attr => .ok (.attrAtLeast (pyUpper attr ++ " ") lvl)
        | none => .error (.pyError "AttributeError upper")
      else .error (.assertFail el)

/-- _parse_skill_prereq (lines 3219-3256). -/
def parseSkillPrereq (el : XmlEl) : Except ParseErr PrereqPred :=
  if el.children.length = 3 then
    match el.find "name", el.find "level", el.find "specialization" with
    | some nameEl, some levelEl, some specEl =>
        if nameEl.get "compare" = some "is" ∧ levelEl.get "compare" = some "at_least" ∧
            specEl.get "compare" = some "is anything" then
          (intAttr levelEl.txt).map (fun n => .skillLevelAtLeast (pyTitle nameEl.txt) n)
        else .error (.assertFail el)
    | _, _, _ => .error (.assertFail el)
  else if el.children.length = 2 then
    match el.find "name", el.find "specialization" with
    | some nameEl, some specEl =>
        if nameEl.get "compare" = some "is" ∧ specEl.get "compare" = some "is anything" then
          .ok (.skillIs (pyTitle nameEl.txt))
        else .error (.assertFail el)
    | _, _ => .error (.assertFail el)
  else .error (.assertFail el)

/-- Leaf dispatch of _parse_prereq_list (lines 3293-3302). -/
def parseLeaf (child : XmlEl) : Except ParseErr PrereqPred :=
  if child.tag = "spell_prereq" then parseSpellPrereq child
  else if child.tag = "advantage_prereq" then parseAdvantagePrereq child
  else if child.tag = "attribute_prereq" then parseAttributePrereq child
  else if child.tag = "skill_prereq" then parseSkillPrereq child
  else .error (.unknownTag child.tag)

mutual

/-- _parse_prereq_list (lines 3278-3317): compile every child (recursing on
nested prereq_list elements) and join with and_ when all="yes", or_
otherwise. -/
def parsePrereqList : XmlEl → Except ParseErr PrereqPred
  | .mk _ attrs _ children =>
      match parseListChildren children with
      | .error e => .error e
      | .ok ps =>
          if List.lookup "all" attrs = some "yes" then .ok (.andP ps) else .ok (.orP ps)
termination_by el => sizeOf el

/-- Child loop of _parse_prereq_list. -/
def parseListChildren : List XmlEl → Except ParseErr (List PrereqPred)
  | [] => .ok []
  | c :: rest =>
      match (if c.tag = "prereq_list" then parsePrereqList c else parseLeaf c) with
      | .error e => .error e
      | .ok p =>
          match parseListChildren rest with
          | .error e => .error e
          | .ok ps => .ok (p :: ps)
termination_by cs => sizeOf cs

end

/-- The prerequisite tree of Scenario B: ALL(name-is "Magery",
level-at-least "Magery" 2), encoded exactly as the catalog encodes it - a
prereq_list with all="yes" wrapping the advantage_prereq element that
carries the name-is and level-at-least conditions (the shape compiled at
dfrandom.py lines 3100-3113). -/
def mageryTreeEl : XmlEl :=
  .mk "prereq_list" [("all", "yes")] ""
    [.mk "advantage_prereq" [("has", "yes")] ""
      [.mk "name" [("compare", "is")] "Magery" [],
       .mk "level" [("compare", "at_least")] "2" [],
       .mk "notes" [("compare", "is anything")] "" []]]

/-- The predicate the compiler produces for mageryTreeEl. -/
def mageryPred : PrereqPred := .andP [.advLevelAtLeast "Magery" 2]

/-- C10 (Scenario B): the compiled predicate for the tree
ALL(name-is "Magery", level-at-least "Magery" 2) is satisfied by a
selection containing "Magery 3" and not satisfied by one containing
"Magery 1" instead. -/
theorem claim_C10_scenario_b :
    parsePrereqList mageryTreeEl = .ok mageryPred ∧
    prereq_satisfied ⟨[]⟩ [("Magic Spell", mageryPred)] "Magic Spell"
      [("Magery 3", 35, TraitType.AD)] = true ∧
    prereq_satisfied ⟨[]⟩ [("Magic Spell", mageryPred)] "Magic Spell"
      [("Magery 1", 15, TraitType.AD)] = false := by
  refine ⟨?_, ?_, ?_⟩
  · simp +decide [parsePrereqList, parseListChildren, parseLeaf, parseAdvantagePrereq,
      mageryTreeEl, mageryPred, XmlEl.tag, XmlEl.children, XmlEl.get, XmlEl.find,
      XmlEl.txt, XmlEl.attrs, hasCompare, intAttr, pyInt, stripSpaces, digitsVal,
      digitsToNat, pyTitle, pyTitleAux, Except.map]
  · simp +decide [prereq_satisfied, mageryPred, evalPred, levelScan, firstDigitRun,
      digitsToNat, strStarts, traitNamesOf, dedupFirstAux, traitName, List.attach,
      List.attachWith]
  · simp +decide [prereq_satisfied, mageryPred, evalPred, levelScan, firstDigitRun,
      digitsToNat, strStarts, traitNamesOf, dedupFirstAux, traitName, List.attach,
      List.attachWith]

/-- The leaf shapes of spell_prereq elements that the compiler recognizes,
as the specification enumerates them: a single name condition compared with
is / contains / starts with; a single college_count at_least condition; a
single college condition compared with contains / is; a college+quantity
pair (contains or is, with at_least); a name+quantity pair (starts with,
is+is, contains, is, or is anything, with the respective quantity compare);
an any+quantity pair with at_least. -/
def recognizedSpellShape (el : XmlEl) : Bool :=
  match el.children with
  | [c] =>
      (c.tag == "name" &&
        (c.get "compare" == some "is" || c.get "compare" == some "contains" ||
         c.get "compare" == some "starts with"))
      || (c.tag == "college_count" && c.get "compare" == some "at_least")
      || (c.tag == "college" &&
           (c.get "compare" == some "contains" || c.get "compare" == some "is"))
  | [_, _] =>
      (hasCompare (el.find "college") "contains" && hasCompare (el.find "quantity") "at_least")
      || (hasCompare (el.find "college") "is" && hasCompare (el.find "quantity") "at_least")
      || (hasCompare (el.find "name") "starts with" && hasCompare (el.find "quantity") "at_least")
      || (hasCompare (el.find "name") "is" && hasCompare (el.find "quantity") "is")
      || (hasCompare (el.find "name") "contains" && hasCompare (el.find "quantity") "at_least")
      || (hasCompare (el.find "name") "is" && hasCompare (el.find "quantity") "at_least")
      || (hasCompare (el.find "name") "is anything" && hasCompare (el.find "quantity") "at_least")
      || ((el.find "any").isSome && hasCompare (el.find "quantity") "at_least")
  | _ => false

/-- Case analysis for spell_prereq elements with exactly one child. -/
theorem spell_cases_single (tag : String) (attrs : List (String × String)) (txt : String)
    (c : XmlEl) :
    parseSpellPrereq (.mk tag attrs txt [c]) =
      .error (.assertFail (.mk tag attrs txt [c])) ∨
    recognizedSpellShape (.mk tag attrs txt [c]) = true := by
  unfold parseSpellPrereq recognizedSpellShape
  simp only [XmlEl.children]
  split_ifs <;> simp_all [hasCompare]

/-- Case analysis for spell_prereq elements with exactly two children. -/
theorem spell_cases_pair (tag : String) (attrs : List (String × String)) (txt : String)
    (c c2 : XmlEl) :
    parseSpellPrereq (.mk tag attrs txt [c, c2]) =
      .error (.assertFail (.mk tag attrs txt [c, c2])) ∨
    recognizedSpellShape (.mk tag attrs txt [c, c2]) = true := by
  unfold parseSpellPrereq recognizedSpellShape
  simp only [XmlEl.children]
  split_ifs <;> try (left; rfl)
  all_goals try (split <;> try (left; rfl))
  all_goals split_ifs <;> simp_all [hasCompare]

/-- Every spell_prereq element either trips the final assert (carrying the
offending element) or has one of the recognized shapes. -/
theorem spell_cases (el : XmlEl) :
    parseSpellPrereq el = .error (.assertFail el) ∨ recognizedSpellShape el = true := by
  obtain ⟨tag, attrs, txt, children⟩ := el
  rcases children with _ | ⟨c, _ | ⟨c2, _ | ⟨c3, rest⟩⟩⟩
  · left; rfl
  · exact spell_cases_single tag attrs txt c
  · exact spell_cases_pair tag attrs txt c c2
  · left; rfl

/-- A child whose leaf compilation fails makes the whole child loop of
_parse_prereq_list fail. -/
theorem parseListChildren_error (cs : List XmlEl) (c : XmlEl) (hc : c ∈ cs) (e : ParseErr)
    (h : (if c.tag = "prereq_list" then parsePrereqList c else parseLeaf c) = .error e) :
    ∃ e2, parseListChildren cs = .error e2 := by
  induction cs with
  | nil => cases hc
  | cons d rest ih =>
      rcases List.mem_cons.mp hc with heq | hmem
      · subst heq
        exact ⟨e, by rw [parseListChildren, h]⟩
      · cases hd : (if d.tag = "prereq_list" then parsePrereqList d else parseLeaf d) with
        | error e2 => exact ⟨e2, by rw [parseListChildren, hd]⟩
        | ok p =>
            obtain ⟨e2, he2⟩ := ih hmem
            exact ⟨e2, by rw [parseListChildren, hd, he2]⟩

/-- C4: a spell_prereq leaf whose shape matches none of the compiler's
recognized cases makes _parse_spell_prereq fail with the assert that
carries the offending element; a compiled predicate is only ever produced
for a recognized shape (so an unrecognized shape is never silently treated
as always-true or always-false); and through _parse_prereq_list such a
leaf aborts the compilation of the whole tree. -/
theorem claim_C4_unrecognized_leaf_fatal :
    (∀ el : XmlEl, recognizedSpellShape el = false →
       parseSpellPrereq el = .error (.assertFail el)) ∧
    (∀ (el : XmlEl) (p : PrereqPred), parseSpellPrereq el = .ok p →
       recognizedSpellShape el = true) ∧
    (∀ el c : XmlEl, c ∈ el.children → c.tag = "spell_prereq" →
       recognizedSpellShape c = false → ∃ e, parsePrereqList el = .error e) := by
  refine ⟨?_, ?_, ?_⟩
  · intro el h
    rcases spell_cases el with h1 | h1
    · exact h1
    · rw [h] at h1; cases h1
  · intro el p h
    rcases spell_cases el with h1 | h1
    · rw [h] at h1; cases h1
    · exact h1
  · intro el c hc htag hshape
    have hparse : parseSpellPrereq c = .error (.assertFail c) := by
      rcases spell_cases c with h1 | h1
      · exact h1
      · rw [hshape] at h1; cases h1
    have hleaf : (if c.tag = "prereq_list" then parsePrereqList c else parseLeaf c) =
        .error (.assertFail c) := by
      rw [if_neg (by rw [htag]; decide)]
      rw [parseLeaf, if_pos htag]
      exact hparse
    obtain ⟨e2, he2⟩ := parseListChildren_error el.children c hc (.assertFail c) hleaf
    obtain ⟨tag, attrs, txt, children⟩ := el
    simp only [XmlEl.children] at he2
    exact ⟨e2, by rw [parsePrereqList, he2]⟩

/-- An unrecognized leaf shape, used as witness input for claim C4:
a single name condition with the unrecognized compare value "equals". -/
def badSpellEl : XmlEl :=
  .mk "spell_prereq" [("has", "yes")] ""
    [.mk "name" [("compare", "equals")] "light" []]

/-- Witness for claim C4 at the concrete unrecognized element. -/
theorem claim_C4_unrecognized_leaf_fatal_witness :
    recognizedSpellShape badSpellEl = false ∧
    parseSpellPrereq badSpellEl = .error (.assertFail badSpellEl) := by
  have hshape : recognizedSpellShape badSpellEl = false := by
    simp +decide [recognizedSpellShape, badSpellEl, XmlEl.children, XmlEl.tag, XmlEl.get,
      XmlEl.attrs, hasCompare, XmlEl.find]
  exact ⟨hshape, claim_C4_unrecognized_leaf_fatal.1 badSpellEl hshape⟩

/-- Little-endian decimal digits of a natural number (empty for 0); the
fuel argument makes the definition structural, any fuel of at least n
gives the digits of n. -/
def natDigitsRevAux : Nat → Nat → List Char
  | 0, _ => []
  | fuel + 1, n => if n = 0 then [] else Char.ofNat (48 + n % 10) :: natDigitsRevAux fuel (n / 10)

/-- Little-endian decimal digits of a natural number (empty for 0). -/
def natDigitsRev (n : Nat) : List Char := natDigitsRevAux n n

/-- Decimal rendering of a natural number. -/
def renderNat (n : Nat) : List Char :=
  if n = 0 then ['0'] else (natDigitsRev n).reverse

/-- Python "%d" rendering of an integer. -/
def renderInt (i : Int) : List Char :=
  if i < 0 then '-' :: renderNat (-i).toNat else renderNat i.toNat

/-- Exact numbers for the merge levels (Python ints and floats; floats
carry short decimal literals in the catalogs and are modelled as exact
fractions).  The denominator is always positive. -/
structure PyNum where
  num : Int
  den : Nat
deriving DecidableEq

/-- Embedding of a Python int level. -/
def PyNum.ofNat (n : Nat) : PyNum := ⟨n, 1⟩

/-- Addition of levels. -/
def PyNum.add (a b : PyNum) : PyNum := ⟨a.num * b.den + b.num * a.den, a.den * b.den⟩

/-- Python max on two numbers (returns the first on ties). -/
def pyMax (a b : PyNum) : PyNum :=
  if a.num * (b.den : Int) < b.num * (a.den : Int) then b else a

/-- Python int() conversion of a number as used by "%d": truncation toward
zero. -/
def pyTruncRat (q : PyNum) : Int :=
  if q.num < 0 then -((-q.num) / (q.den : Int)) else q.num / (q.den : Int)

/-- The merged trait name "%s %d" % (bare_name, level). -/
def renderMerged (b : String) (lvl : PyNum) : String :=
  String.mk (b.data ++ ' ' :: renderInt (pyTruncRat lvl))

/-- Model of re.search("(.*) \\+(\\d+)$", name): a match exists exactly when
the name ends in a space, a plus and a nonempty digit run; the greedy (.*)
makes the digit group the maximal trailing digit run.  Returns the bare
name (group 1) and the numeric value of group 2. -/
def parsePlus (name : String) : Option (String × Nat) :=
  match name.data.reverse.span Char.isDigit with
  | (ds, rest) =>
      if ds = [] then none
      else
        match rest with
        | '+' :: ' ' :: bareRev => some (String.mk bareRev.reverse, digitsToNat ds.reverse)
        | _ => none

/-- Model of re.search("(.*) ([0-9.]+)$", name): a match exists exactly when
the name ends in a space followed by a nonempty run of digits and dots.
Returns the bare name (group 1) and the characters of group 2. -/
def parseLevelSuffix (name : String) : Option (String × List Char) :=
  match name.data.reverse.span (fun c => c.isDigit || c == '.') with
  | (ds, rest) =>
      if ds = [] then none
      else
        match rest with
        | ' ' :: bareRev => some (String.mk bareRev.reverse, ds.reverse)
        | _ => none

/-- Numeric value of a level suffix: int(s) for a pure digit run, float(s)
when a dot is present (exactly one dot and at least one digit, otherwise
Python raises ValueError); Python floats are modelled as exact rationals. -/
def parseLevelValue (ds : List Char) : Option PyNum :=
  if '.' ∈ ds then
    if ds.count '.' = 1 ∧ ds.filter Char.isDigit ≠ [] then
      some ⟨digitsToNat (ds.takeWhile (fun c => !(c == '.'))) *
          10 ^ ((ds.dropWhile (fun c => !(c == '.'))).tail).length +
          digitsToNat ((ds.dropWhile (fun c => !(c == '.'))).tail),
        10 ^ ((ds.dropWhile (fun c => !(c == '.'))).tail).length⟩
    else none
  else some (PyNum.ofNat (digitsToNat ds))

/-- The bare name a trait name maps to, when one of the two patterns
matches (the plus pattern is tried first, as in the source). -/
def bareKey (name : String) : Option String :=
  match parsePlus name with
  | some (b, _) => some b
  | none => (parseLevelSuffix name).map (fun p => p.1)

/-- The three dictionaries of merge_traits. -/
structure MergeSt where
  level : List (String × PyNum)
  cost : List (String × Int)
  bare : List (String × String)

/-- Python dict assignment d[k] = v on an association list. -/
def upsert {α : Type} (k : String) (v : α) : List (String × α) → List (String × α)
  | [] => [(k, v)]
  | (k2, v2) :: rest => if k2 = k then (k, v) :: rest else (k2, v2) :: upsert k v rest

/-- First loop of merge_traits (dfrandom.py lines 511-534): fill the three
dictionaries; a "+N" name whose bare name has no entry yet raises KeyError,
a level suffix that is not a valid Python number raises ValueError. -/
def mergePass1 (σ : MergeSt) : List Trait → Except PyErr MergeSt
  | [] => .ok σ
  | (name, cost, _) :: rest =>
      match parsePlus name with
      | some (b, k) =>
          match List.lookup b σ.level, List.lookup b σ.cost with
          | some lv, some cb =>
              mergePass1 ⟨upsert b (lv.add (PyNum.ofNat k)) σ.level, upsert b (cb + cost) σ.cost,
                          upsert name b σ.bare⟩ rest
          | _, _ => .error .keyError
      | none =>
          match parseLevelSuffix name with
          | some (b, ds) =>
              match parseLevelValue ds with
              | some lv =>
                  mergePass1 ⟨upsert b (pyMax ((List.lookup b σ.level).getD (PyNum.ofNat 0)) lv) σ.level,
                              upsert b (((List.lookup b σ.cost).getD 0) + cost) σ.cost,
                              upsert name b σ.bare⟩ rest
              | none => .error .valueError
          | none => mergePass1 σ rest

/-- Second loop of merge_traits (lines 536-549): emit unmatched traits
unchanged, emit each bare name once with its accumulated level and cost. -/
def mergePass2 (σ : MergeSt) : List Trait → List String → List Trait →
    Except PyErr (List Trait)
  | [], _, out => .ok out
  | (name, cost, tt) :: rest, done, out =>
      match List.lookup name σ.bare with
      | none => mergePass2 σ rest done (out ++ [(name, cost, tt)])
      | some b =>
          if b ∈ done then mergePass2 σ rest done out
          else
            match List.lookup b σ.level, List.lookup b σ.cost with
            | some lv, some cb =>
                mergePass2 σ rest (b :: done) (out ++ [(renderMerged b lv, cb, tt)])
            | _, _ => .error .keyError

/-- merge_traits (lines 501-550). -/
def merge_traits (traits : List Trait) : Except PyErr (List Trait) :=
  match mergePass1 ⟨[], [], []⟩ traits with
  | .error e => .error e
  | .ok σ => mergePass2 σ traits [] []

/-- Dictionary lemma: looking up the key just written. -/
theorem lookup_upsert_self {α : Type} (k : String) (v : α) (m : List (String × α)) :
    List.lookup k (upsert k v m) = some v := by
  induction m with
  | nil => simp [upsert, List.lookup_cons]
  | cons p rest ih =>
      obtain ⟨k2, v2⟩ := p
      by_cases h : k2 = k
      · subst h
        rw [upsert, if_pos rfl, List.lookup_cons]
        simp
      · rw [upsert, if_neg h, List.lookup_cons]
        have hb : (k == k2) = false := by simp [Ne.symm h]
        simp only [hb]
        exact ih

/-- Dictionary lemma: writes to other keys are invisible. -/
theorem lookup_upsert_ne {α : Type} (k k2 : String) (v : α) (m : List (String × α))
    (h : k2 ≠ k) : List.lookup k2 (upsert k v m) = List.lookup k2 m := by
  induction m with
  | nil =>
      rw [upsert, List.lookup_cons]
      have hb : (k2 == k) = false := by simp [h]
      simp [hb, List.lookup]
  | cons p rest ih =>
      obtain ⟨k3, v3⟩ := p
      by_cases h3 : k3 = k
      · rw [upsert, if_pos h3, List.lookup_cons, List.lookup_cons]
        have hbk : (k2 == k) = false := by simp [h]
        have hne3 : k2 ≠ k3 := fun he => h (he.trans h3)
        have hbk3 : (k2 == k3) = false := by simp [hne3]
        simp only [hbk, hbk3]
      · rw [upsert, if_neg h3, List.lookup_cons, List.lookup_cons]
        cases hk : (k2 == k3)
        · simp only []
          exact ih
        · simp only []

/-- The span loop stops exactly at the first character failing the test. -/
theorem span_loop_append_stop (p : Char → Bool) (l1 : List Char) (x : Char) (l2 : List Char)
    (h1 : ∀ c ∈ l1, p c = true) (hx : p x = false) :
    ∀ acc, List.span.loop p (l1 ++ x :: l2) acc = (acc.reverse ++ l1, x :: l2) := by
  induction l1 with
  | nil =>
      intro acc
      simp [List.span.loop, hx]
  | cons c cs ih =>
      intro acc
      have hc : p c = true := h1 c (by simp)
      rw [List.cons_append, List.span.loop]
      simp only [hc, if_true]
      rw [ih (fun d hd => h1 d (by simp [hd])) (c :: acc)]
      simp

/-- span on a list of passing characters followed by a failing one. -/
theorem span_append_stop (p : Char → Bool) (l1 : List Char) (x : Char) (l2 : List Char)
    (h1 : ∀ c ∈ l1, p c = true) (hx : p x = false) :
    (l1 ++ x :: l2).span p = (l1, x :: l2) := by
  rw [List.span, span_loop_append_stop p l1 x l2 h1 hx []]
  simp

/-- Characters produced by natDigitsRevAux are decimal digits. -/
theorem natDigitsRevAux_digits (fuel : Nat) :
    ∀ (n : Nat), ∀ c ∈ natDigitsRevAux fuel n, c.isDigit = true := by
  induction fuel with
  | zero => intro n c hc; simp [natDigitsRevAux] at hc
  | succ fuel ih =>
      intro n c hc
      rw [natDigitsRevAux] at hc
      by_cases hn : n = 0
      · simp [hn] at hc
      · rw [if_neg hn] at hc
        rcases List.mem_cons.mp hc with rfl | hmem
        · have hd : n % 10 < 10 := Nat.mod_lt _ (by omega)
          interval_cases h : n % 10 <;> decide
        · exact ih (n / 10) c hmem

/-- Characters produced by natDigitsRev are decimal digits. -/
theorem natDigitsRev_digits (n : Nat) : ∀ c ∈ natDigitsRev n, c.isDigit = true :=
  natDigitsRevAux_digits n n

/-- Characters produced by renderNat are decimal digits. -/
theorem renderNat_digits (n : Nat) : ∀ c ∈ renderNat n, c.isDigit = true := by
  intro c hc
  rw [renderNat] at hc
  by_cases hn : n = 0
  · rw [if_pos hn] at hc; simp at hc; subst hc; decide
  · rw [if_neg hn] at hc
    exact natDigitsRev_digits n c (List.mem_reverse.mp hc)

/-- renderNat never produces the empty list. -/
theorem renderNat_ne_nil (n : Nat) : renderNat n ≠ [] := by
  rw [renderNat]
  by_cases hn : n = 0
  · simp [hn]
  · rw [if_neg hn, Ne, List.reverse_eq_nil_iff]
    cases n with
    | zero => exact absurd rfl hn
    | succ m =>
        rw [natDigitsRev, natDigitsRevAux, if_neg hn]
        simp

/-- A merged output name "%s %d" re-parses either to no bare name (the
rendered level was negative) or to exactly the bare name it was built
from: the rendered digits form the maximal trailing digit run and the
inserted space sits right in front of them. -/
theorem bareKey_renderMerged (b : String) (lvl : PyNum) :
    bareKey (renderMerged b lvl) = none ∨ bareKey (renderMerged b lvl) = some b := by
  by_cases hneg : pyTruncRat lvl < 0
  · left
    have hdata : (renderMerged b lvl).data =
        b.data ++ ' ' :: '-' :: renderNat (-(pyTruncRat lvl)).toNat := by
      simp [renderMerged, renderInt, hneg]
    have hrev : (renderMerged b lvl).data.reverse =
        (renderNat (-(pyTruncRat lvl)).toNat).reverse ++ '-' :: ' ' :: b.data.reverse := by
      rw [hdata]
      simp
    have hspan1 : (renderMerged b lvl).data.reverse.span Char.isDigit =
        ((renderNat (-(pyTruncRat lvl)).toNat).reverse, '-' :: ' ' :: b.data.reverse) := by
      rw [hrev]
      exact span_append_stop _ _ _ _
        (fun c hc => renderNat_digits _ c (List.mem_reverse.mp hc)) (by decide)
    have hspan2 : (renderMerged b lvl).data.reverse.span (fun c => c.isDigit || c == '.') =
        ((renderNat (-(pyTruncRat lvl)).toNat).reverse, '-' :: ' ' :: b.data.reverse) := by
      rw [hrev]
      refine span_append_stop _ _ _ _ ?_ (by decide)
      intro c hc
      simp [renderNat_digits _ c (List.mem_reverse.mp hc)]
    rw [bareKey, parsePlus, hspan1, parseLevelSuffix, hspan2]
    simp [List.reverse_eq_nil_iff, renderNat_ne_nil]
  · right
    have hdata : (renderMerged b lvl).data =
        b.data ++ ' ' :: renderNat (pyTruncRat lvl).toNat := by
      simp [renderMerged, renderInt, hneg]
    have hrev : (renderMerged b lvl).data.reverse =
        (renderNat (pyTruncRat lvl).toNat).reverse ++ ' ' :: b.data.reverse := by
      rw [hdata]
      simp
    have hspan1 : (renderMerged b lvl).data.reverse.span Char.isDigit =
        ((renderNat (pyTruncRat lvl).toNat).reverse, ' ' :: b.data.reverse) := by
      rw [hrev]
      exact span_append_stop _ _ _ _
        (fun c hc => renderNat_digits _ c (List.mem_reverse.mp hc)) (by decide)
    have hspan2 : (renderMerged b lvl).data.reverse.span (fun c => c.isDigit || c == '.') =
        ((renderNat (pyTruncRat lvl).toNat).reverse, ' ' :: b.data.reverse) := by
      rw [hrev]
      refine span_append_stop _ _ _ _ ?_ (by decide)
      intro c hc
      simp [renderNat_digits _ c (List.mem_reverse.mp hc)]
    rw [bareKey, parsePlus, hspan1, parseLevelSuffix, hspan2]
    simp [List.reverse_eq_nil_iff, renderNat_ne_nil]

/-- Total cost of the traits whose names map to bare name b. -/
def fiberCost (b : String) (ts : List Trait) : Int :=
  ((ts.filter (fun t => bareKey t.1 == some b)).map traitCost).sum

/-- Some trait name of ts maps to bare name b. -/
def hasBareIn (b : String) (ts : List Trait) : Bool :=
  ts.any (fun t => bareKey t.1 == some b)

/-- Some trait of ts carries the name n. -/
def hasNameIn (n : String) (ts : List Trait) : Bool :=
  ts.any (fun t => t.1 == n)

/-- The level and cost dictionaries always have the same keys. -/
def stSync (σ : MergeSt) : Prop :=
  ∀ b, (List.lookup b σ.level).isSome = (List.lookup b σ.cost).isSome

/-- A name matching the plus pattern has its group 1 as bare name. -/
theorem bareKey_plus (name b0 : String) (k : Nat) (h : parsePlus name = some (b0, k)) :
    bareKey name = some b0 := by
  rw [bareKey, h]

/-- A name matching only the level pattern has its group 1 as bare name. -/
theorem bareKey_level (name b0 : String) (ds : List Char) (h1 : parsePlus name = none)
    (h2 : parseLevelSuffix name = some (b0, ds)) : bareKey name = some b0 := by
  rw [bareKey, h1, h2]
  rfl

/-- A name matching neither pattern has no bare name. -/
theorem bareKey_none (name : String) (h1 : parsePlus name = none)
    (h2 : parseLevelSuffix name = none) : bareKey name = none := by
  rw [bareKey, h1, h2]
  rfl

/-- Unfolding lemma for fiberCost over a cons. -/
theorem fiberCost_cons (b : String) (t : Trait) (ts : List Trait) :
    fiberCost b (t :: ts) =
      (if bareKey t.1 == some b then traitCost t else 0) + fiberCost b ts := by
  rw [fiberCost, List.filter_cons]
  split <;> simp_all [fiberCost]

/-- Unfolding lemma for hasBareIn over a cons. -/
theorem hasBareIn_cons (b : String) (t : Trait) (ts : List Trait) :
    hasBareIn b (t :: ts) = ((bareKey t.1 == some b) || hasBareIn b ts) := by
  simp [hasBareIn]

/-- Both dictionaries updated at the same key keep their keys in sync. -/
theorem stSync_upsert (σ : MergeSt) (hs : stSync σ) (b0 : String) (lv : PyNum) (cb : Int)
    (bm : List (String × String)) :
    stSync ⟨upsert b0 lv σ.level, upsert b0 cb σ.cost, bm⟩ := by
  intro b
  by_cases hb : b = b0
  · subst hb
    simp [lookup_upsert_self]
  · simp only [lookup_upsert_ne _ _ _ _ hb]
    exact hs b

/-- Characterization of the cost dictionary after a successful first pass:
the entry of a bare name is its previous value plus the summed cost of all
processed traits mapping to it, created on first sight of the bare name. -/
theorem mergePass1_cost (ts : List Trait) :
    ∀ (σ σ' : MergeSt), mergePass1 σ ts = .ok σ' → stSync σ →
      ∀ b, List.lookup b σ'.cost =
        match List.lookup b σ.cost with
        | some c => some (c + fiberCost b ts)
        | none => if hasBareIn b ts then some (fiberCost b ts) else none := by
  induction ts with
  | nil =>
      intro σ σ' h _ b
      rw [mergePass1] at h
      injection h with h
      subst h
      cases hc : List.lookup b σ.cost <;>
        simp [fiberCost, hasBareIn, List.filter]
  | cons t rest ih =>
      obtain ⟨name, cost, tt⟩ := t
      intro σ σ' h hsync b
      rw [mergePass1] at h
      cases hp : parsePlus name with
      | some p =>
          obtain ⟨b0, k⟩ := p
          rw [hp] at h
          dsimp only [] at h
          cases hl : List.lookup b0 σ.level with
          | none =>
              rw [hl] at h
              cases hc0 : List.lookup b0 σ.cost <;> rw [hc0] at h <;> simp at h
          | some lv =>
              rw [hl] at h
              cases hc0 : List.lookup b0 σ.cost with
              | none =>
                  have hs := hsync b0
                  rw [hl, hc0] at hs
                  simp at hs
              | some cb =>
                  rw [hc0] at h
                  dsimp only [] at h
                  have hsync1 : stSync ⟨upsert b0 (lv.add (PyNum.ofNat k)) σ.level,
                      upsert b0 (cb + cost) σ.cost, upsert name b0 σ.bare⟩ :=
                    stSync_upsert σ hsync b0 _ _ _
                  have ih2 := ih _ σ' h hsync1 b
                  have hbk : bareKey name = some b0 := bareKey_plus name b0 k hp
                  by_cases hb : b = b0
                  · subst hb
                    rw [lookup_upsert_self] at ih2
                    dsimp only [] at ih2
                    rw [ih2, hc0]
                    dsimp only []
                    simp only [fiberCost_cons, hbk, traitCost, beq_self_eq_true, if_true,
                      Option.some.injEq]
                    ring
                  · have hne : (bareKey name == some b) = false := by
                      rw [hbk, beq_eq_false_iff_ne]
                      exact fun hx => hb (Option.some.inj hx).symm
                    rw [lookup_upsert_ne _ _ _ _ hb] at ih2
                    rw [ih2]
                    simp only [fiberCost_cons, hasBareIn_cons, hne, Bool.false_or,
                      Bool.false_eq_true, if_false, zero_add]
      | none =>
          rw [hp] at h
          dsimp only [] at h
          cases hls : parseLevelSuffix name with
          | none =>
              rw [hls] at h
              dsimp only [] at h
              have hbk : bareKey name = none := bareKey_none name hp hls
              have hne : (bareKey name == some b) = false := by
                simp [hbk]
              have ih2 := ih σ σ' h hsync b
              rw [ih2]
              simp only [fiberCost_cons, hasBareIn_cons, hne, Bool.false_or,
                Bool.false_eq_true, if_false, zero_add]
          | some p =>
              obtain ⟨b0, ds⟩ := p
              rw [hls] at h
              dsimp only [] at h
              cases hlv : parseLevelValue ds with
              | none => rw [hlv] at h; simp at h
              | some lv =>
                  rw [hlv] at h
                  dsimp only [] at h
                  have hsync1 : stSync ⟨upsert b0
                        (pyMax ((List.lookup b0 σ.level).getD (PyNum.ofNat 0)) lv) σ.level,
                      upsert b0 (((List.lookup b0 σ.cost).getD 0) + cost) σ.cost,
                      upsert name b0 σ.bare⟩ :=
                    stSync_upsert σ hsync b0 _ _ _
                  have ih2 := ih _ σ' h hsync1 b
                  have hbk : bareKey name = some b0 := bareKey_level name b0 ds hp hls
                  by_cases hb : b = b0
                  · subst hb
                    rw [lookup_upsert_self] at ih2
                    dsimp only [] at ih2
                    rw [ih2]
                    cases hc0 : List.lookup b σ.cost with
                    | none =>
                        dsimp only []
                        simp only [hc0, Option.getD_none, fiberCost_cons, hasBareIn_cons, hbk,
                          traitCost, beq_self_eq_true, Bool.true_or, if_true, Option.some.injEq]
                        ring
                    | some cb =>
                        dsimp only []
                        simp only [hc0, Option.getD_some, fiberCost_cons, hbk, traitCost,
                          beq_self_eq_true, if_true, Option.some.injEq]
                        ring
                  · have hne : (bareKey name == some b) = false := by
                      rw [hbk, beq_eq_false_iff_ne]
                      exact fun hx => hb (Option.some.inj hx).symm
                    rw [lookup_upsert_ne _ _ _ _ hb] at ih2
                    rw [ih2]
                    simp only [fiberCost_cons, hasBareIn_cons, hne, Bool.false_or,
                      Bool.false_eq_true, if_false, zero_add]

/-- Unfolding lemma for hasNameIn over a cons. -/
theorem hasNameIn_cons (n : String) (t : Trait) (ts : List Trait) :
    hasNameIn n (t :: ts) = ((t.1 == n) || hasNameIn n ts) := by
  simp [hasNameIn]

/-- Characterization of the name-to-bare-name dictionary after a
successful first pass: processed names that match a pattern map to their
bare name, everything else is untouched. -/
theorem mergePass1_bare (ts : List Trait) :
    ∀ (σ σ' : MergeSt), mergePass1 σ ts = .ok σ' →
      ∀ n, List.lookup n σ'.bare =
        if hasNameIn n ts ∧ (bareKey n).isSome then bareKey n
        else List.lookup n σ.bare := by
  induction ts with
  | nil =>
      intro σ σ' h n
      rw [mergePass1] at h
      injection h with h
      subst h
      simp [hasNameIn]
  | cons t rest ih =>
      obtain ⟨name, cost, tt⟩ := t
      intro σ σ' h n
      rw [mergePass1] at h
      cases hp : parsePlus name with
      | some p =>
          obtain ⟨b0, k⟩ := p
          rw [hp] at h
          dsimp only [] at h
          cases hl : List.lookup b0 σ.level with
          | none =>
              rw [hl] at h
              cases hc0 : List.lookup b0 σ.cost <;> rw [hc0] at h <;> simp at h
          | some lv =>
              rw [hl] at h
              cases hc0 : List.lookup b0 σ.cost with
              | none => rw [hc0] at h; simp at h
              | some cb =>
                  rw [hc0] at h
                  dsimp only [] at h
                  have ih2 := ih _ σ' h n
                  have hbk : bareKey name = some b0 := bareKey_plus name b0 k hp
                  by_cases hn : n = name
                  · subst hn
                    rw [ih2]
                    have hcond : hasNameIn n ((n, cost, tt) :: rest) = true ∧
                        (bareKey n).isSome = true := by
                      simp [hasNameIn_cons, hbk]
                    rw [if_pos hcond]
                    split_ifs with h1
                    · rfl
                    · rw [lookup_upsert_self, hbk]
                  · have hnn : name ≠ n := fun hx => hn hx.symm
                    have hne : (name == n) = false := by simp [hnn]
                    rw [ih2, lookup_upsert_ne name n b0 σ.bare hn]
                    simp only [hasNameIn_cons, hne, Bool.false_or]
      | none =>
          rw [hp] at h
          dsimp only [] at h
          cases hls : parseLevelSuffix name with
          | none =>
              rw [hls] at h
              dsimp only [] at h
              have hbk : bareKey name = none := bareKey_none name hp hls
              have ih2 := ih σ σ' h n
              rw [ih2]
              by_cases hn : n = name
              · subst hn
                simp [hbk]
              · have hnn : name ≠ n := fun hx => hn hx.symm
                have hne : (name == n) = false := by simp [hnn]
                simp only [hasNameIn_cons, hne, Bool.false_or]
          | some p =>
              obtain ⟨b0, ds⟩ := p
              rw [hls] at h
              dsimp only [] at h
              cases hlv : parseLevelValue ds with
              | none => rw [hlv] at h; simp at h
              | some lv =>
                  rw [hlv] at h
                  dsimp only [] at h
                  have ih2 := ih _ σ' h n
                  have hbk : bareKey name = some b0 := bareKey_level name b0 ds hp hls
                  by_cases hn : n = name
                  · subst hn
                    rw [ih2]
                    have hcond : hasNameIn n ((n, cost, tt) :: rest) = true ∧
                        (bareKey n).isSome = true := by
                      simp [hasNameIn_cons, hbk]
                    rw [if_pos hcond]
                    split_ifs with h1
                    · rfl
                    · rw [lookup_upsert_self, hbk]
                  · have hnn : name ≠ n := fun hx => hn hx.symm
                    have hne : (name == n) = false := by simp [hnn]
                    rw [ih2, lookup_upsert_ne name n b0 σ.bare hn]
                    simp only [hasNameIn_cons, hne, Bool.false_or]

/-- Abstract cost gain of the second loop over the remaining traits, given
the dictionaries: unmatched costs plus, for each bare name seen for the
first time, its accumulated dictionary cost. -/
def pass2Gain (σ : MergeSt) : List String → List Trait → Int
  | _, [] => 0
  | done, (name, _cost, _) :: rest =>
      match List.lookup name σ.bare with
      | none => _cost + pass2Gain σ done rest
      | some b =>
          if b ∈ done then pass2Gain σ done rest
          else ((List.lookup b σ.cost).getD 0) + pass2Gain σ (b :: done) rest

/-- The bare names emitted by the second loop, in order of first
occurrence, skipping those already done. -/
def newBares : List Trait → List String → List String
  | [], _ => []
  | (name, _, _) :: rest, done =>
      match bareKey name with
      | none => newBares rest done
      | some b => if b ∈ done then newBares rest done else b :: newBares rest (b :: done)

/-- Total cost of the traits matching neither pattern. -/
def sumUnmatched (ts : List Trait) : Int :=
  ((ts.filter (fun t => bareKey t.1 == none)).map traitCost).sum

/-- Total cost of the traits matching one of the two patterns. -/
def sumMatched (ts : List Trait) : Int :=
  ((ts.filter (fun t => (bareKey t.1).isSome)).map traitCost).sum

/-- The second loop adds exactly pass2Gain to the output it accumulates. -/
theorem mergePass2_sum (σ : MergeSt) (ts : List Trait) :
    ∀ done out r, mergePass2 σ ts done out = .ok r →
      sumCost r = sumCost out + pass2Gain σ done ts := by
  induction ts with
  | nil =>
      intro done out r h
      rw [mergePass2] at h
      injection h with h
      subst h
      rw [pass2Gain]
      ring
  | cons t rest ih =>
      obtain ⟨name, cost, tt⟩ := t
      intro done out r h
      rw [mergePass2] at h
      rw [pass2Gain]
      cases hb : List.lookup name σ.bare with
      | none =>
          rw [hb] at h
          dsimp only [] at h ⊢
          have h2 := ih done (out ++ [(name, cost, tt)]) r h
          rw [h2, sumCost_append_one]
          dsimp only [traitCost]
          ring
      | some b =>
          rw [hb] at h
          dsimp only [] at h ⊢
          by_cases hdone : b ∈ done
          · rw [if_pos hdone] at h ⊢
            exact ih done out r h
          · rw [if_neg hdone] at h ⊢
            cases hlv : List.lookup b σ.level with
            | none =>
                rw [hlv] at h
                cases hcb : List.lookup b σ.cost <;> rw [hcb] at h <;> simp at h
            | some lv =>
                rw [hlv] at h
                cases hcb : List.lookup b σ.cost with
                | none => rw [hcb] at h; simp at h
                | some cb =>
                    rw [hcb] at h
                    dsimp only [] at h
                    have h2 := ih (b :: done) (out ++ [(renderMerged b lv, cb, tt)]) r h
                    rw [h2, sumCost_append_one]
                    dsimp only [traitCost]
                    simp only [Option.getD_some]
                    ring

/-- Unfolding lemma for sumUnmatched over a cons. -/
theorem sumUnmatched_cons (t : Trait) (ts : List Trait) :
    sumUnmatched (t :: ts) =
      (if bareKey t.1 == none then traitCost t else 0) + sumUnmatched ts := by
  rw [sumUnmatched, List.filter_cons]
  split <;> simp_all [sumUnmatched]

/-- Unfolding lemma for sumMatched over a cons. -/
theorem sumMatched_cons (t : Trait) (ts : List Trait) :
    sumMatched (t :: ts) =
      (if (bareKey t.1).isSome then traitCost t else 0) + sumMatched ts := by
  rw [sumMatched, List.filter_cons]
  split <;> simp_all [sumMatched]

/-- Every trait is either matched by a pattern or not. -/
theorem sumCost_split (ts : List Trait) : sumCost ts = sumUnmatched ts + sumMatched ts := by
  induction ts with
  | nil => simp [sumCost, sumUnmatched, sumMatched]
  | cons t rest ih =>
      rw [sumUnmatched_cons, sumMatched_cons]
      have hsc : sumCost (t :: rest) = traitCost t + sumCost rest := by
        simp [sumCost]
      rw [hsc, ih]
      cases hk : bareKey t.1 <;> simp_all <;> ring

/-- Membership in the emitted bare names. -/
theorem mem_newBares (b : String) :
    ∀ (ts2 : List Trait) (done : List String),
      b ∈ newBares ts2 done ↔ (b ∉ done ∧ hasBareIn b ts2 = true) := by
  intro ts2
  induction ts2 with
  | nil => intro done; simp [newBares, hasBareIn]
  | cons t rest ih =>
      obtain ⟨name, cost, tt⟩ := t
      intro done
      rw [newBares, hasBareIn_cons]
      cases hk : bareKey name with
      | none =>
          dsimp only []
          rw [ih done]
          simp
      | some b0 =>
          dsimp only []
          by_cases hdone : b0 ∈ done
          · rw [if_pos hdone, ih done]
            constructor
            · rintro ⟨h1, h2⟩
              refine ⟨h1, ?_⟩
              simp [h2]
            · rintro ⟨h1, h2⟩
              refine ⟨h1, ?_⟩
              rcases (Bool.or_eq_true _ _).mp h2 with h3 | h3
              · exfalso
                have : b0 = b := by simpa using h3
                exact h1 (this ▸ hdone)
              · exact h3
          · rw [if_neg hdone]
            rw [List.mem_cons, ih (b0 :: done)]
            constructor
            · rintro (rfl | ⟨h1, h2⟩)
              · exact ⟨hdone, by simp⟩
              · exact ⟨fun hc => h1 (List.mem_cons_of_mem _ hc), by simp [h2]⟩
            · rintro ⟨h1, h2⟩
              rcases (Bool.or_eq_true _ _).mp h2 with h3 | h3
              · left
                have : b0 = b := by simpa using h3
                exact this.symm
              · by_cases hbb : b = b0
                · exact Or.inl hbb
                · right
                  exact ⟨by simp [hbb, h1], h3⟩

/-- The emitted bare names are pairwise distinct. -/
theorem newBares_nodup : ∀ (ts2 : List Trait) (done : List String), (newBares ts2 done).Nodup := by
  intro ts2
  induction ts2 with
  | nil => intro done; simp [newBares]
  | cons t rest ih =>
      obtain ⟨name, cost, tt⟩ := t
      intro done
      rw [newBares]
      cases hk : bareKey name with
      | none => exact ih done
      | some b0 =>
          dsimp only []
          by_cases hdone : b0 ∈ done
          · rw [if_pos hdone]; exact ih done
          · rw [if_neg hdone]
            refine List.Nodup.cons ?_ (ih (b0 :: done))
            intro hmem
            have := (mem_newBares b0 rest (b0 :: done)).mp hmem
            exact this.1 (by simp)

/-- Adding x at one distinguished member of a duplicate-free list. -/
theorem sum_if_mem (b0 : String) (x : Int) (f : String → Int) :
    ∀ (B : List String), B.Nodup → b0 ∈ B →
      ((B.map (fun b => if b0 = b then x + f b else f b)).sum) = x + (B.map f).sum := by
  intro B
  induction B with
  | nil => intro _ h; cases h
  | cons c rest ih =>
      intro hnd hmem
      rw [List.map_cons, List.map_cons, List.sum_cons, List.sum_cons]
      by_cases hc : b0 = c
      · rw [if_pos hc]
        subst hc
        have hnotin : b0 ∉ rest := (List.nodup_cons.mp hnd).1
        have hrest : (rest.map (fun b => if b0 = b then x + f b else f b)) = rest.map f := by
          apply List.map_congr_left
          intro a ha
          refine if_neg (fun he => hnotin ?_)
          rw [he]
          exact ha
        rw [hrest]
        ring
      · rw [if_neg hc]
        have hmem2 : b0 ∈ rest := by
          rcases List.mem_cons.mp hmem with h1 | h1
          · exact absurd h1 hc
          · exact h1
        rw [ih (List.nodup_cons.mp hnd).2 hmem2]
        ring

/-- Summing the per-bare-name fibers over any duplicate-free covering
list of bare names gives the total cost of the matched traits. -/
theorem fiber_partition (ts : List Trait) :
    ∀ (B : List String), B.Nodup →
      (∀ t ∈ ts, ∀ b, bareKey t.1 = some b → b ∈ B) →
      ((B.map (fun b => fiberCost b ts)).sum) = sumMatched ts := by
  induction ts with
  | nil =>
      intro B _ _
      have h0 : (B.map (fun b => fiberCost b ([] : List Trait))) = B.map (fun _ => 0) := by
        apply List.map_congr_left
        intro a _
        simp [fiberCost]
      rw [h0]
      simp [sumMatched]
  | cons t rest ih =>
      obtain ⟨name, cost, tt⟩ := t
      intro B hnd hcov
      have hcovrest : ∀ t ∈ rest, ∀ b, bareKey t.1 = some b → b ∈ B :=
        fun t ht b hb => hcov t (List.mem_cons_of_mem _ ht) b hb
      rw [sumMatched_cons]
      cases hk : bareKey (name, cost, tt).1 with
      | none =>
          have hmap : (B.map (fun b => fiberCost b ((name, cost, tt) :: rest))) =
              B.map (fun b => fiberCost b rest) := by
            apply List.map_congr_left
            intro a _
            rw [fiberCost_cons, hk]
            simp
          rw [hmap, ih B hnd hcovrest]
          simp
      | some b0 =>
          have hb0 : b0 ∈ B := hcov _ (by simp) b0 hk
          have hmap : (B.map (fun b => fiberCost b ((name, cost, tt) :: rest))) =
              B.map (fun b => if b0 = b then traitCost (name, cost, tt) + fiberCost b rest
                else fiberCost b rest) := by
            apply List.map_congr_left
            intro a _
            rw [fiberCost_cons, hk]
            by_cases hba : b0 = a
            · subst hba
              simp
            · have : (some b0 == some a) = false := by
                rw [beq_eq_false_iff_ne]
                exact fun he => hba (Option.some.inj he)
              rw [this, if_neg hba]
              simp
          rw [hmap, sum_if_mem b0 (traitCost (name, cost, tt)) _ B hnd hb0,
            ih B hnd hcovrest]
          simp

/-- Under the dictionary characterizations of a completed first pass, the
second loop's gain is the unmatched cost plus one fiber per new bare name. -/
theorem pass2Gain_eq (σ : MergeSt) (tsAll : List Trait)
    (hbare : ∀ n, List.lookup n σ.bare =
      if hasNameIn n tsAll ∧ (bareKey n).isSome then bareKey n else none)
    (hcost : ∀ b, List.lookup b σ.cost =
      if hasBareIn b tsAll then some (fiberCost b tsAll) else none) :
    ∀ (ts2 : List Trait) (done : List String), (∀ t ∈ ts2, t ∈ tsAll) →
      pass2Gain σ done ts2 =
        sumUnmatched ts2 + ((newBares ts2 done).map (fun b => fiberCost b tsAll)).sum := by
  intro ts2
  induction ts2 with
  | nil => intro done _; simp [pass2Gain, newBares, sumUnmatched]
  | cons t rest ih =>
      obtain ⟨name, cost, tt⟩ := t
      intro done hsub
      have hmem : ((name, cost, tt) : Trait) ∈ tsAll := hsub _ (by simp)
      have hnm : hasNameIn name tsAll = true := by
        simp only [hasNameIn, List.any_eq_true]
        exact ⟨(name, cost, tt), hmem, by simp⟩
      have hsubrest : ∀ t ∈ rest, t ∈ tsAll := fun t ht => hsub t (List.mem_cons_of_mem _ ht)
      rw [pass2Gain, newBares, sumUnmatched_cons]
      dsimp only []
      cases hk : bareKey name with
      | none =>
          have hlook : List.lookup name σ.bare = none := by
            rw [hbare name, hk]
            simp
          rw [hlook]
          dsimp only []
          rw [ih done hsubrest]
          dsimp only [traitCost]
          simp only [beq_self_eq_true, if_true]
          ring
      | some b =>
          have hlook : List.lookup name σ.bare = some b := by
            rw [hbare name, hk, if_pos ⟨hnm, rfl⟩]
          rw [hlook]
          dsimp only []
          have hunm : ((some b == (none : Option String)) : Bool) = false := by
            simp
          by_cases hdone : b ∈ done
          · rw [if_pos hdone, if_pos hdone, ih done hsubrest]
            simp only [hunm, Bool.false_eq_true, if_false]
            ring
          · rw [if_neg hdone, if_neg hdone]
            have hbin : hasBareIn b tsAll = true := by
              simp only [hasBareIn, List.any_eq_true]
              exact ⟨(name, cost, tt), hmem, by simp [hk]⟩
            rw [hcost b, if_pos hbin]
            rw [ih (b :: done) hsubrest]
            simp only [hunm, Bool.false_eq_true, if_false, List.map_cons, List.sum_cons,
              Option.getD_some]
            ring

/-- Under the bare-map characterization, the second loop's output never
carries the same bare name twice. -/
theorem mergePass2_nodup (σ : MergeSt) (tsAll : List Trait)
    (hbare : ∀ n, List.lookup n σ.bare =
      if hasNameIn n tsAll ∧ (bareKey n).isSome then bareKey n else none) :
    ∀ (ts2 : List Trait) (done : List String) (out r : List Trait),
      (∀ t ∈ ts2, t ∈ tsAll) →
      mergePass2 σ ts2 done out = .ok r →
      (out.filterMap (fun t => bareKey t.1)).Nodup →
      (∀ b2 ∈ out.filterMap (fun t => bareKey t.1), b2 ∈ done) →
      (r.filterMap (fun t => bareKey t.1)).Nodup := by
  intro ts2
  induction ts2 with
  | nil =>
      intro done out r _ h hnd _
      rw [mergePass2] at h
      injection h with h
      subst h
      exact hnd
  | cons t rest ih =>
      obtain ⟨name, cost, tt⟩ := t
      intro done out r hsub h hnd hdone_inv
      have hmem : ((name, cost, tt) : Trait) ∈ tsAll := hsub _ (by simp)
      have hnm : hasNameIn name tsAll = true := by
        simp only [hasNameIn, List.any_eq_true]
        exact ⟨(name, cost, tt), hmem, by simp⟩
      have hsubrest : ∀ t ∈ rest, t ∈ tsAll := fun t ht => hsub t (List.mem_cons_of_mem _ ht)
      rw [mergePass2] at h
      cases hb : List.lookup name σ.bare with
      | none =>
          rw [hb] at h
          dsimp only [] at h
          have hk : bareKey name = none := by
            cases hkk : bareKey name with
            | none => rfl
            | some b0 =>
                exfalso
                have := hbare name
                rw [hkk, if_pos ⟨hnm, rfl⟩, hb] at this
                exact Option.noConfusion this
          refine ih done (out ++ [(name, cost, tt)]) r hsubrest h ?_ ?_
          · rw [List.filterMap_append]
            simp [hk, hnd]
          · intro b2 hb2
            rw [List.filterMap_append] at hb2
            rcases List.mem_append.mp hb2 with h1 | h1
            · exact hdone_inv b2 h1
            · simp [hk] at h1
      | some b =>
          rw [hb] at h
          dsimp only [] at h
          have hk : bareKey name = some b := by
            have := hbare name
            rw [hb] at this
            by_cases hcond : hasNameIn name tsAll = true ∧ (bareKey name).isSome = true
            · rw [if_pos hcond] at this
              exact this.symm
            · rw [if_neg hcond] at this
              exact Option.noConfusion this
          by_cases hdone : b ∈ done
          · rw [if_pos hdone] at h
            exact ih done out r hsubrest h hnd hdone_inv
          · rw [if_neg hdone] at h
            cases hlv : List.lookup b σ.level with
            | none =>
                rw [hlv] at h
                cases hcb : List.lookup b σ.cost <;> rw [hcb] at h <;> simp at h
            | some lv =>
                rw [hlv] at h
                cases hcb : List.lookup b σ.cost with
                | none => rw [hcb] at h; simp at h
                | some cb =>
                    rw [hcb] at h
                    dsimp only [] at h
                    refine ih (b :: done) (out ++ [(renderMerged b lv, cb, tt)]) r
                      hsubrest h ?_ ?_
                    · rw [List.filterMap_append]
                      rcases bareKey_renderMerged b lv with hr | hr
                      · simp [hr, hnd]
                      · simp only [List.filterMap_cons, hr, List.filterMap_nil]
                        have hnotout : b ∉ out.filterMap (fun t => bareKey t.1) :=
                          fun hc => hdone (hdone_inv b hc)
                        simp [List.nodup_append, hnd, hnotout]
                    · intro b2 hb2
                      rw [List.filterMap_append] at hb2
                      rcases List.mem_append.mp hb2 with h1 | h1
                      · exact List.mem_cons_of_mem _ (hdone_inv b2 h1)
                      · rcases bareKey_renderMerged b lv with hr | hr
                        · simp [hr] at h1
                        · simp only [List.filterMap_cons, hr, List.filterMap_nil] at h1
                          simp at h1
                          subst h1
                          exact List.mem_cons_self _ _

/-- C5 amended: whenever merge_traits returns normally, the total summed
weight of the result equals that of the input and no two result entries
share a bare name (entries whose names match neither pattern carry no bare
name).  The function can also raise (KeyError / ValueError), and its result
depends on the input order - see the counterexample. -/
theorem claim_C5_merge_partial_conservation :
    ∀ (ts r : List Trait), merge_traits ts = .ok r →
      sumCost r = sumCost ts ∧ (r.filterMap (fun t => bareKey t.1)).Nodup := by
  intro ts r h
  rw [merge_traits] at h
  cases hσ : mergePass1 ⟨[], [], []⟩ ts with
  | error e => rw [hσ] at h; simp at h
  | ok σ =>
      rw [hσ] at h
      dsimp only [] at h
      have hsync0 : stSync ⟨[], [], []⟩ := by
        intro b
        simp [List.lookup]
      have hcost : ∀ b, List.lookup b σ.cost =
          if hasBareIn b ts then some (fiberCost b ts) else none := by
        intro b
        have h2 := mergePass1_cost ts _ σ hσ hsync0 b
        simpa [List.lookup] using h2
      have hbare : ∀ n, List.lookup n σ.bare =
          if hasNameIn n ts ∧ (bareKey n).isSome then bareKey n else none := by
        intro n
        have h2 := mergePass1_bare ts _ σ hσ n
        simpa [List.lookup] using h2
      constructor
      · have hsum := mergePass2_sum σ ts [] [] r h
        have hgain := pass2Gain_eq σ ts hbare hcost ts [] (fun t ht => ht)
        have hpart := fiber_partition ts (newBares ts []) (newBares_nodup ts [])
          (fun t ht b hb => (mem_newBares b ts []).mpr
            ⟨by simp, by
              simp only [hasBareIn, List.any_eq_true]
              exact ⟨t, ht, by simp [hb]⟩⟩)
        rw [hsum, hgain, hpart, sumCost_split ts]
        simp [sumCost]
      · exact mergePass2_nodup σ ts hbare ts [] [] r (fun t ht => ht) h (by simp) (by simp)

/-- C5 counterexample: merge_traits is not an order-independent function of
the input entries - permuting the input changes which level wins (a later
"Magery 3" is folded with max against a total already raised by "Magery +2",
an earlier one is not) - and a "+N" entry without a preceding plain-level
entry makes the function raise KeyError instead of returning a list. -/
theorem claim_C5_counterexample :
    (([("Magery 1", 1, TraitType.AD), ("Magery 3", 1, TraitType.AD),
       ("Magery +2", 1, TraitType.AD)] : List Trait).Perm
      [("Magery 1", 1, TraitType.AD), ("Magery +2", 1, TraitType.AD),
       ("Magery 3", 1, TraitType.AD)]) ∧
    merge_traits [("Magery 1", 1, TraitType.AD), ("Magery 3", 1, TraitType.AD),
      ("Magery +2", 1, TraitType.AD)] = .ok [("Magery 5", 3, TraitType.AD)] ∧
    merge_traits [("Magery 1", 1, TraitType.AD), ("Magery +2", 1, TraitType.AD),
      ("Magery 3", 1, TraitType.AD)] = .ok [("Magery 3", 3, TraitType.AD)] ∧
    (("Magery 5", 3, TraitType.AD) : Trait) ≠ ("Magery 3", 3, TraitType.AD) ∧
    merge_traits [("ST +2", 20, TraitType.PA)] = .error .keyError := by
  refine ⟨by decide, by rfl, by rfl, by decide, by rfl⟩

/-- Witness for the amended claim C5 at a concrete successful run. -/
theorem claim_C5_merge_partial_conservation_witness :
    merge_traits [("ST 14", 40, TraitType.PA), ("ST +2", 20, TraitType.PA)] =
      .ok [("ST 16", 60, TraitType.PA)] ∧
    sumCost [("ST 16", 60, TraitType.PA)] =
      sumCost [("ST 14", 40, TraitType.PA), ("ST +2", 20, TraitType.PA)] ∧
    (([("ST 16", 60, TraitType.PA)] : List Trait).filterMap
      (fun t => bareKey t.1)).Nodup := by
  have hrun : merge_traits [("ST 14", 40, TraitType.PA), ("ST +2", 20, TraitType.PA)] =
      .ok [("ST 16", 60, TraitType.PA)] := by rfl
  have h2 := claim_C5_merge_partial_conservation
    [("ST 14", 40, TraitType.PA), ("ST +2", 20, TraitType.PA)]
    [("ST 16", 60, TraitType.PA)] hrun
  exact ⟨hrun, h2.1, h2.2⟩
